import Mathlib

/-!
# MagicalContainer

A shallow embedding of `sources/MagicalContainer.cpp` (namespace `ariel`): a
container of `int` with three position-based iterators over it.

Modelling conventions.
* `vector<int>` is `List Int`; `push_back` is `++ [x]`, `find` + `erase` is
  `List.erase` (first occurrence), `std::sort` is `List.insertionSort (· ≤ ·)`
  (on integers the sorted permutation of a list is unique, so every sorting
  algorithm returns this list).
* `vector<int*> primeElements` holds addresses of slots of `ascendedElements`;
  an address is modelled by the index of the slot it points at.
* `unsigned int` is a natural number below `UINT_MOD = 2^32`; every conversion
  from `size_t` and every arithmetic operation on it is reduced modulo
  `UINT_MOD`.
* A method that mutates its object returns an `Outcome`: the state of the
  object when the method is left, and the error it was left with, if any.  A
  thrown `runtime_error` is one constructor of `Error` per message.  Undefined
  behaviour of the C++ code (indexing a vector out of its bounds, `pop_back` on
  an empty vector) is the separate error `undefinedBehaviour`; the state
  reported with it carries no meaning.
* An iterator stores a pointer to its container; it is modelled by a record of
  the container state it points at and its `position`.
-/

namespace ariel

/-- Number of values of the C++ type `unsigned int`. -/
def UINT_MOD : Nat := 4294967296

/-- Outcomes other than a normal return. -/
inductive Error where
  /-- The `runtime_error` of `removeElement`: "Element ... is NOT found inside the container." -/
  | notFound
  /-- The `runtime_error` of `operator++`: "The iterator's position has exceeded its limit." -/
  | outOfRange
  /-- The `runtime_error` of `operator=`: "Assigning a different container for an iterator is NOT allowed." -/
  | incompatibleContainer
  /-- Undefined behaviour of the C++ code: an out-of-bounds vector access or `pop_back` on an empty vector. -/
  | undefinedBehaviour
  /-- The bounded client loop of the model ran out of steps (not a C++ outcome). -/
  | outOfFuel
  deriving DecidableEq

/-- What a mutating method leaves behind: the object's state at the moment the
method is left, and the error raised, `none` for a normal return. -/
structure Outcome (σ : Type) where
  state : σ
  error : Option Error
  deriving DecidableEq

/-- A normal return in state `s`. -/
def Outcome.ok {σ : Type} (s : σ) : Outcome σ := ⟨s, none⟩

/-- Leaving the method in state `s` with error `e`. -/
def Outcome.throw {σ : Type} (s : σ) (e : Error) : Outcome σ := ⟨s, some e⟩

/-- The three private vectors of `class MagicalContainer`. -/
structure MagicalContainer where
  elements : List Int
  ascendedElements : List Int
  primeElements : List Nat
  deriving DecidableEq

namespace MagicalContainer

/-- The constructor `MagicalContainer()`: three empty vectors. -/
def empty : MagicalContainer := ⟨[], [], []⟩

/-- The trial-division loop of `isPrime`: `for (int i = 2; i < number; i++)`,
entered at `i` with `remaining = number - i` iterations left.  A zero
remainder returns `false`; leaving the loop returns `true`. -/
def isPrimeLoop (number : Int) : Int → Nat → Bool
  | _, 0 => true
  | i, remaining + 1 =>
    if Int.tmod number i = 0 then false else isPrimeLoop number (i + 1) remaining

/-- The method `bool isPrime(int number)`. -/
def isPrime (number : Int) : Bool :=
  if number ≤ 1 then false
  else if number = 2 then true
  else isPrimeLoop number 2 (number - 2).toNat

/-- The loop of `maintainAddresses` over the remaining values of
`ascendedElements`, with the two `unsigned int` trackers and the current
contents of `primeElements`.  A write `primeElements[k] = ...` with `k` not
below the length is undefined behaviour (`none`). -/
def maintainLoop : List Int → Nat → Nat → List Nat → Option (List Nat)
  | [], _, _, primes => some primes
  | value :: rest, primeElementsTracker, ascendedElementsTracker, primes =>
    if isPrime value then
      if primeElementsTracker < primes.length then
        maintainLoop rest ((primeElementsTracker + 1) % UINT_MOD)
          ((ascendedElementsTracker + 1) % UINT_MOD)
          (primes.set primeElementsTracker ascendedElementsTracker)
      else none
    else
      maintainLoop rest primeElementsTracker ((ascendedElementsTracker + 1) % UINT_MOD) primes

/-- The method `void maintainAddresses()`. -/
def maintainAddresses (c : MagicalContainer) : Outcome MagicalContainer :=
  match maintainLoop c.ascendedElements 0 0 c.primeElements with
  | some primes => .ok { c with primeElements := primes }
  | none => .throw c .undefinedBehaviour

/-- The method `void addElement(int element)`. -/
def addElement (c : MagicalContainer) (element : Int) : Outcome MagicalContainer :=
  let c1 := { c with elements := c.elements ++ [element] }
  let c2 := { c1 with ascendedElements := c1.ascendedElements ++ [element] }
  let c3 := { c2 with ascendedElements := c2.ascendedElements.insertionSort (· ≤ ·) }
  let c4 :=
    if isPrime element then
      { c3 with primeElements := c3.primeElements ++ [c3.ascendedElements.length - 1] }
    else c3
  maintainAddresses c4

/-- The method `void removeElement(int element)`. -/
def removeElement (c : MagicalContainer) (element : Int) : Outcome MagicalContainer :=
  if element ∉ c.elements then .throw c .notFound
  else
    let c1 := { c with elements := c.elements.erase element }
    let c2 := { c1 with ascendedElements := c1.ascendedElements.erase element }
    if isPrime element then
      if c2.primeElements = [] then .throw c2 .undefinedBehaviour
      else maintainAddresses { c2 with primeElements := c2.primeElements.dropLast }
    else maintainAddresses c2

/-- The method `unsigned int size() const`. -/
def size (c : MagicalContainer) : Nat := c.elements.length % UINT_MOD

end MagicalContainer

/-- Wrapping subtraction of two `unsigned int` values. -/
def usub (a b : Nat) : Nat := (a + UINT_MOD - b % UINT_MOD) % UINT_MOD

/-- The class `MagicalContainer::AscendingIterator`. -/
structure AscendingIterator where
  container : MagicalContainer
  position : Nat
  deriving DecidableEq

/-- The class `MagicalContainer::SideCrossIterator`. -/
structure SideCrossIterator where
  container : MagicalContainer
  position : Nat
  deriving DecidableEq

/-- The class `MagicalContainer::PrimeIterator`. -/
structure PrimeIterator where
  container : MagicalContainer
  position : Nat
  deriving DecidableEq

namespace AscendingIterator

/-- The constructor `AscendingIterator(MagicalContainer& container)`. -/
def ofContainer (container : MagicalContainer) : AscendingIterator := ⟨container, 0⟩

/-- The constructor `AscendingIterator(MagicalContainer&, unsigned int position)`. -/
def ofPosition (container : MagicalContainer) (position : Nat) : AscendingIterator :=
  ⟨container, position % UINT_MOD⟩

/-- The method `begin()`. -/
def begin (it : AscendingIterator) : AscendingIterator := ofContainer it.container

/-- The method `end()`. -/
def end_ (it : AscendingIterator) : AscendingIterator :=
  ofPosition it.container it.container.ascendedElements.length

/-- The operator `*`: `ascendedElements[position]`. -/
def deref (it : AscendingIterator) : Except Error Int :=
  match it.container.ascendedElements[it.position]? with
  | some v => .ok v
  | none => .error .undefinedBehaviour

/-- The prefix operator `++`. -/
def inc (it : AscendingIterator) : Outcome AscendingIterator :=
  if it.position ≥ it.end_.position then .throw it .outOfRange
  else .ok { it with position := (it.position + 1) % UINT_MOD }

/-- The operator `=`, assigning `other` to `it`. -/
def assign (it other : AscendingIterator) : Outcome AscendingIterator :=
  if it.container.elements ≠ other.container.elements then .throw it .incompatibleContainer
  else .ok { it with position := other.position }

/-- The operator `==`. -/
def eq (it other : AscendingIterator) : Bool := it.position == other.position

/-- The operator `!=`. -/
def ne (it other : AscendingIterator) : Bool := it.position != other.position

/-- The operator `<`. -/
def lt (it rightItr : AscendingIterator) : Bool := decide (it.position < rightItr.position)

/-- The operator `>`. -/
def gt (it rightItr : AscendingIterator) : Bool := decide (it.position > rightItr.position)

/-- The client loop `for (it = begin(); it != end(); ++it) out.push_back(*it)`,
entered at `it`, bounded by `fuel` iterations. -/
def collect : Nat → AscendingIterator → Except Error (List Int)
  | 0, _ => .error .outOfFuel
  | fuel + 1, it =>
    if it.ne it.end_ then
      match it.deref with
      | .error e => .error e
      | .ok v =>
        match it.inc with
        | ⟨_, some e⟩ => .error e
        | ⟨next, none⟩ =>
          match collect fuel next with
          | .error e => .error e
          | .ok vs => .ok (v :: vs)
    else .ok []

/-- The outcome of `k` applications of `++` to `it`, stopping at the first error. -/
def advance : Nat → AscendingIterator → Outcome AscendingIterator
  | 0, it => .ok it
  | k + 1, it =>
    match it.inc with
    | ⟨left, some e⟩ => .throw left e
    | ⟨next, none⟩ => advance k next

end AscendingIterator

namespace SideCrossIterator

/-- The constructor `SideCrossIterator(MagicalContainer& container)`. -/
def ofContainer (container : MagicalContainer) : SideCrossIterator := ⟨container, 0⟩

/-- The constructor `SideCrossIterator(MagicalContainer&, unsigned int position)`. -/
def ofPosition (container : MagicalContainer) (position : Nat) : SideCrossIterator :=
  ⟨container, position % UINT_MOD⟩

/-- The method `begin()`. -/
def begin (it : SideCrossIterator) : SideCrossIterator := ofContainer it.container

/-- The method `end()`. -/
def end_ (it : SideCrossIterator) : SideCrossIterator :=
  ofPosition it.container it.container.ascendedElements.length

/-- The operator `*`: `ascendedElements[position]`. -/
def deref (it : SideCrossIterator) : Except Error Int :=
  match it.container.ascendedElements[it.position]? with
  | some v => .ok v
  | none => .error .undefinedBehaviour

/-- The prefix operator `++`. -/
def inc (it : SideCrossIterator) : Outcome SideCrossIterator :=
  if it.position = it.end_.position then .throw it .outOfRange
  else
    let barrier := it.container.ascendedElements.length % UINT_MOD
    if it.position < barrier / 2 then
      .ok { it with position := usub (usub barrier 1) it.position }
    else if it.position = barrier / 2 then
      .ok { it with position := barrier }
    else
      .ok { it with position := usub barrier it.position }

/-- The operator `=`, assigning `other` to `it`. -/
def assign (it other : SideCrossIterator) : Outcome SideCrossIterator :=
  if it.container.elements ≠ other.container.elements then .throw it .incompatibleContainer
  else .ok { it with position := other.position }

/-- The operator `==`. -/
def eq (it other : SideCrossIterator) : Bool := it.position == other.position

/-- The operator `!=`. -/
def ne (it other : SideCrossIterator) : Bool := it.position != other.position

/-- The operator `<`. -/
def lt (it rightItr : SideCrossIterator) : Bool := decide (it.position < rightItr.position)

/-- The operator `>`. -/
def gt (it rightItr : SideCrossIterator) : Bool := decide (it.position > rightItr.position)

/-- The client loop `for (it = begin(); it != end(); ++it) out.push_back(*it)`,
entered at `it`, bounded by `fuel` iterations. -/
def collect : Nat → SideCrossIterator → Except Error (List Int)
  | 0, _ => .error .outOfFuel
  | fuel + 1, it =>
    if it.ne it.end_ then
      match it.deref with
      | .error e => .error e
      | .ok v =>
        match it.inc with
        | ⟨_, some e⟩ => .error e
        | ⟨next, none⟩ =>
          match collect fuel next with
          | .error e => .error e
          | .ok vs => .ok (v :: vs)
    else .ok []

/-- The outcome of `k` applications of `++` to `it`, stopping at the first error. -/
def advance : Nat → SideCrossIterator → Outcome SideCrossIterator
  | 0, it => .ok it
  | k + 1, it =>
    match it.inc with
    | ⟨left, some e⟩ => .throw left e
    | ⟨next, none⟩ => advance k next

end SideCrossIterator

namespace PrimeIterator

/-- The constructor `PrimeIterator(MagicalContainer& container)`. -/
def ofContainer (container : MagicalContainer) : PrimeIterator := ⟨container, 0⟩

/-- The constructor `PrimeIterator(MagicalContainer&, unsigned int position)`. -/
def ofPosition (container : MagicalContainer) (position : Nat) : PrimeIterator :=
  ⟨container, position % UINT_MOD⟩

/-- The method `begin()`. -/
def begin (it : PrimeIterator) : PrimeIterator := ofContainer it.container

/-- The method `end()`. -/
def end_ (it : PrimeIterator) : PrimeIterator :=
  ofPosition it.container it.container.primeElements.length

/-- The operator `*`: `*primeElements[position]`, the slot of `ascendedElements`
that the stored address points at. -/
def deref (it : PrimeIterator) : Except Error Int :=
  match it.container.primeElements[it.position]? with
  | none => .error .undefinedBehaviour
  | some address =>
    match it.container.ascendedElements[address]? with
    | some v => .ok v
    | none => .error .undefinedBehaviour

/-- The prefix operator `++`. -/
def inc (it : PrimeIterator) : Outcome PrimeIterator :=
  if it.position ≥ it.end_.position then .throw it .outOfRange
  else .ok { it with position := (it.position + 1) % UINT_MOD }

/-- The operator `=`, assigning `other` to `it`. -/
def assign (it other : PrimeIterator) : Outcome PrimeIterator :=
  if it.container.elements ≠ other.container.elements then .throw it .incompatibleContainer
  else .ok { it with position := other.position }

/-- The operator `==`. -/
def eq (it other : PrimeIterator) : Bool := it.position == other.position

/-- The operator `!=`. -/
def ne (it other : PrimeIterator) : Bool := it.position != other.position

/-- The operator `<`. -/
def lt (it rightItr : PrimeIterator) : Bool := decide (it.position < rightItr.position)

/-- The operator `>`. -/
def gt (it rightItr : PrimeIterator) : Bool := decide (it.position > rightItr.position)

/-- The client loop `for (it = begin(); it != end(); ++it) out.push_back(*it)`,
entered at `it`, bounded by `fuel` iterations. -/
def collect : Nat → PrimeIterator → Except Error (List Int)
  | 0, _ => .error .outOfFuel
  | fuel + 1, it =>
    if it.ne it.end_ then
      match it.deref with
      | .error e => .error e
      | .ok v =>
        match it.inc with
        | ⟨_, some e⟩ => .error e
        | ⟨next, none⟩ =>
          match collect fuel next with
          | .error e => .error e
          | .ok vs => .ok (v :: vs)
    else .ok []

end PrimeIterator

/-- One call of the public mutating interface. -/
inductive Call where
  | add (element : Int)
  | remove (element : Int)
  deriving DecidableEq

/-- The outcome of one call on container `c`. -/
def Call.exec (c : MagicalContainer) : Call → Outcome MagicalContainer
  | .add element => c.addElement element
  | .remove element => c.removeElement element

/-- The container after one call made by a caller that catches the not-found
error of `removeElement` and goes on with the container as the failed call
left it.  Undefined behaviour has no successor state. -/
def step (c : MagicalContainer) (call : Call) : Option MagicalContainer :=
  match call.exec c with
  | ⟨next, none⟩ => some next
  | ⟨left, some .notFound⟩ => some left
  | ⟨_, some _⟩ => none

/-- The container after a sequence of calls applied to `c`, in order. -/
def runFrom : MagicalContainer → List Call → Option MagicalContainer
  | c, [] => some c
  | c, call :: calls =>
    match step c call with
    | some next => runFrom next calls
    | none => none

/-- The container after a sequence of calls applied to an empty container. -/
def run (calls : List Call) : Option MagicalContainer := runFrom MagicalContainer.empty calls

/-- The container after inserting the values of `xs`, in order, into an empty container. -/
def insertAll (xs : List Int) : Option MagicalContainer := run (xs.map Call.add)

/-- The addresses `maintainAddresses` is meant to store: the indices of the
prime-valued slots of a vector whose first slot has index `first`, in
increasing order. -/
def primeAddresses : Nat → List Int → List Nat
  | _, [] => []
  | first, value :: rest =>
    if MagicalContainer.isPrime value then first :: primeAddresses (first + 1) rest
    else primeAddresses (first + 1) rest

/-- The values read through a `PrimeIterator` at the cursors `0, 1, ..., end() - 1`. -/
def PrimeIterator.values (c : MagicalContainer) : List (Except Error Int) :=
  (List.range (PrimeIterator.end_ ⟨c, 0⟩).position).map fun k => PrimeIterator.deref ⟨c, k⟩

/-- The consistency of the three vectors that every call re-establishes. -/
structure Consistent (c : MagicalContainer) : Prop where
  sorted : c.ascendedElements.Sorted (· ≤ ·)
  perm : c.ascendedElements.Perm c.elements
  primeCount : c.primeElements.length = c.ascendedElements.countP MagicalContainer.isPrime
  addresses : c.ascendedElements.length ≤ UINT_MOD →
    c.primeElements = primeAddresses 0 c.ascendedElements

/-- The number of `addElement` calls and the number of `removeElement` calls
that returned normally while `calls` ran on `c`. -/
def tally : MagicalContainer → List Call → Nat × Nat
  | _, [] => (0, 0)
  | c, call :: rest =>
    match step c call with
    | none => (0, 0)
    | some next =>
      match call with
      | .add _ => ((tally next rest).1 + 1, (tally next rest).2)
      | .remove _ =>
        if (call.exec c).error = none then ((tally next rest).1, (tally next rest).2 + 1)
        else tally next rest

/-- The position the side-cross order visits in `k`-th place (counting from 0)
in a vector of `n` slots: `0, n - 1, 1, n - 2, 2, ...`. -/
def sideCrossPosition (n k : Nat) : Nat :=
  if k % 2 = 0 then k / 2 else n - 1 - (k - 1) / 2

/-- The cursor the side-cross order prescribes after `k` advances: the `k`-th
visited position while `k < n`, the end cursor `n` from then on. -/
def sideCrossCursor (n k : Nat) : Nat :=
  if k < n then sideCrossPosition n k else n

/-- The side-cross order of a vector, as the specification words it:
`v0, v_{n-1}, v1, v_{n-2}, v2, ...`, one value per position visited. -/
def sideCrossOrder (vs : List Int) : List Int :=
  (List.range vs.length).filterMap fun k => vs[sideCrossPosition vs.length k]?

/-- The indices `k` of the writes `primeElements[k] = ...` that the loop of
`maintainAddresses` performs over the remaining values, entered with
`primeElementsTracker = tracker`: one write per prime value. -/
def maintainWrites : List Int → Nat → List Nat
  | [], _ => []
  | value :: rest, tracker =>
    if MagicalContainer.isPrime value then tracker :: maintainWrites rest ((tracker + 1) % UINT_MOD)
    else maintainWrites rest tracker

/-- The container at the moment `addElement` calls `maintainAddresses`: the
element pushed to both vectors, `ascendedElements` sorted, and the address of
its last slot pushed to `primeElements` when the element is prime. -/
def addElementPrepared (c : MagicalContainer) (element : Int) : MagicalContainer :=
  let c1 := { c with elements := c.elements ++ [element] }
  let c2 := { c1 with ascendedElements := c1.ascendedElements ++ [element] }
  let c3 := { c2 with ascendedElements := c2.ascendedElements.insertionSort (· ≤ ·) }
  if MagicalContainer.isPrime element then
    { c3 with primeElements := c3.primeElements ++ [c3.ascendedElements.length - 1] }
  else c3

/-- The container at the moment `removeElement` calls `maintainAddresses` for
an element it found: the first occurrence erased from both vectors, and the
last entry of `primeElements` popped when the element is prime. -/
def removeElementPrepared (c : MagicalContainer) (element : Int) : MagicalContainer :=
  let c1 := { c with elements := c.elements.erase element }
  let c2 := { c1 with ascendedElements := c1.ascendedElements.erase element }
  if MagicalContainer.isPrime element then
    { c2 with primeElements := c2.primeElements.dropLast }
  else c2

/-! ## Properties -/

open MagicalContainer

/-- The trial-division loop entered at `i` answers whether no `d` in `[i, number)` divides `number`. -/
theorem isPrimeLoop_iff (number : Int) (remaining : Nat) :
    ∀ i : Int, number = i + remaining →
      (isPrimeLoop number i remaining = true ↔ ∀ d : Int, i ≤ d → d < number → ¬ d ∣ number) := by
  induction remaining with
  | zero =>
    intro i h
    simp only [isPrimeLoop, true_iff]
    intro d h1 h2
    simp at h
    omega
  | succ r ih =>
    intro i h
    have hrec := ih (i + 1) (by push_cast at h; omega)
    simp only [isPrimeLoop]
    by_cases hd : Int.tmod number i = 0
    · simp only [hd, if_true]
      constructor
      · intro hf; cases hf
      · intro hall
        exact absurd (Int.dvd_of_tmod_eq_zero hd) (hall i (le_refl _) (by push_cast at h; omega))
    · simp only [hd, if_false, hrec]
      constructor
      · intro hall d h1 h2
        rcases eq_or_lt_of_le h1 with heq | hlt
        · subst heq
          exact fun hdvd => hd (Int.tmod_eq_zero_of_dvd hdvd)
        · exact hall d (by omega) h2
      · intro hall d h1 h2
        exact hall d (by omega) h2

/-- Characterisation of `isPrime` by the absence of a divisor in `[2, n)`. -/
theorem isPrime_iff_noDivisor (n : Int) :
    isPrime n = true ↔ 2 ≤ n ∧ ∀ d : Int, 2 ≤ d → d < n → ¬ d ∣ n := by
  unfold isPrime
  by_cases h1 : n ≤ 1
  · simp only [h1, if_true]
    constructor
    · intro hf; cases hf
    · rintro ⟨h2, _⟩; omega
  · by_cases h2 : n = 2
    · subst h2
      simp only [h1, if_false, if_true, true_iff]
      refine ⟨le_refl _, ?_⟩
      intro d hd1 hd2; omega
    · simp only [h1, h2, if_false]
      rw [isPrimeLoop_iff n (n - 2).toNat 2 (by rw [Int.toNat_of_nonneg (by omega)]; ring)]
      constructor
      · intro h; exact ⟨by omega, h⟩
      · intro h; exact h.2

/-- Characterisation of `isPrime` by primality of natural numbers. -/
theorem isPrime_iff_natPrime (n : Int) : isPrime n = true ↔ 0 ≤ n ∧ Nat.Prime n.toNat := by
  rw [isPrime_iff_noDivisor, Nat.prime_def_lt']
  constructor
  · rintro ⟨h2, hall⟩
    refine ⟨by omega, by omega, ?_⟩
    intro m hm1 hm2 hdvd
    apply hall (m : Int) (by exact_mod_cast hm1) (by omega)
    have : ((m : Int) ∣ ((n.toNat : Nat) : Int)) := Int.natCast_dvd_natCast.mpr hdvd
    rwa [Int.toNat_of_nonneg (by omega)] at this
  · rintro ⟨h0, h2, hall⟩
    refine ⟨by omega, ?_⟩
    intro d hd1 hd2 hdvd
    apply hall d.toNat (by omega) (by omega)
    apply Int.natCast_dvd_natCast.mp
    rwa [Int.toNat_of_nonneg (by omega), Int.toNat_of_nonneg (by omega)]

/-- C4: `isPrime` is a correct primality test on every integer: it returns
`true` exactly when `n ≥ 2` and no `d` with `2 ≤ d < n` divides `n`, which is
exactly when `n` is a (non-negative) prime number.  The function takes the
number alone, so no container state enters the result. -/
theorem isPrime_correct (n : Int) :
    (isPrime n = true ↔ 2 ≤ n ∧ ∀ d : Int, 2 ≤ d → d < n → ¬ d ∣ n) ∧
    (isPrime n = true ↔ 0 ≤ n ∧ Nat.Prime n.toNat) :=
  ⟨isPrime_iff_noDivisor n, isPrime_iff_natPrime n⟩


/-! ### `maintainAddresses` -/

/-- With room for every prime still to come, the loop of `maintainAddresses`
performs no out-of-bounds write and keeps the length of `primeElements`. -/
theorem maintainLoop_total (vs : List Int) :
    ∀ (pt at_ : Nat) (ps : List Nat), pt + vs.countP isPrime ≤ ps.length →
      ∃ ps', maintainLoop vs pt at_ ps = some ps' ∧ ps'.length = ps.length := by
  induction vs with
  | nil => intro pt at_ ps _; exact ⟨ps, rfl, rfl⟩
  | cons v rest ih =>
    intro pt at_ ps h
    by_cases hv : isPrime v = true
    · rw [List.countP_cons_of_pos _ _ hv] at h
      have hlt : pt < ps.length := by omega
      have hmod : (pt + 1) % UINT_MOD ≤ pt + 1 := Nat.mod_le _ _
      obtain ⟨ps', h1, h2⟩ := ih ((pt + 1) % UINT_MOD) ((at_ + 1) % UINT_MOD) (ps.set pt at_)
        (by rw [List.length_set]; omega)
      refine ⟨ps', ?_, ?_⟩
      · simp only [maintainLoop, hv, hlt, if_true]; exact h1
      · rw [h2, List.length_set]
    · rw [List.countP_cons_of_neg _ _ hv] at h
      obtain ⟨ps', h1, h2⟩ := ih pt ((at_ + 1) % UINT_MOD) ps h
      refine ⟨ps', ?_, h2⟩
      simp only [maintainLoop, hv]; exact h1

/-- While the slot indices fit `unsigned int`, the loop of `maintainAddresses`
overwrites the entries `pt, pt + 1, ...` with the addresses of the prime slots. -/
theorem maintainLoop_exact (vs : List Int) :
    ∀ (at_ : Nat) (before mid after : List Nat),
      before.length ≤ at_ → at_ + vs.length ≤ UINT_MOD → mid.length = vs.countP isPrime →
      maintainLoop vs before.length at_ (before ++ mid ++ after)
        = some (before ++ primeAddresses at_ vs ++ after) := by
  induction vs with
  | nil =>
    intro at_ before mid after _ _ hmid
    simp only [List.countP_nil, List.length_eq_zero] at hmid
    subst hmid
    simp [maintainLoop, primeAddresses]
  | cons v rest ih =>
    intro at_ before mid after hle hfit hmid
    simp only [List.length_cons] at hfit
    rcases rest with _ | ⟨w, rest'⟩
    · -- last slot: the trackers are not read again
      by_cases hv : isPrime v = true
      · rw [List.countP_cons_of_pos _ _ hv] at hmid
        simp only [List.countP_nil, zero_add] at hmid
        obtain ⟨m, rfl⟩ := List.length_eq_one.mp hmid
        simp [maintainLoop, primeAddresses, hv]
      · rw [List.countP_cons_of_neg _ _ hv] at hmid
        simp only [List.countP_nil, List.length_eq_zero] at hmid
        subst hmid
        simp [maintainLoop, primeAddresses, hv]
    · simp only [List.length_cons] at hfit
      have hat : (at_ + 1) % UINT_MOD = at_ + 1 := Nat.mod_eq_of_lt (by omega)
      by_cases hv : isPrime v = true
      · rw [List.countP_cons_of_pos _ _ hv] at hmid
        obtain ⟨m, mid', rfl⟩ := List.exists_cons_of_length_eq_add_one hmid
        have hpt : (before.length + 1) % UINT_MOD = before.length + 1 :=
          Nat.mod_eq_of_lt (by omega)
        have hset : (before ++ m :: mid' ++ after).set before.length at_
            = (before ++ [at_]) ++ mid' ++ after := by
          simp [List.set_append]
        have hlen : (before ++ [at_]).length = before.length + 1 := by simp
        have hrec := ih (at_ + 1) (before ++ [at_]) mid' after (by rw [hlen]; omega)
          (by simp only [List.length_cons]; omega) (by simpa using hmid)
        rw [hlen] at hrec
        have hlt : before.length < (before ++ m :: mid' ++ after).length := by simp
        rw [maintainLoop, if_pos hv, if_pos hlt, hpt, hat, hset, hrec]
        simp [primeAddresses, hv]
      · rw [List.countP_cons_of_neg _ _ hv] at hmid
        have hrec := ih (at_ + 1) before mid after (by omega)
          (by simp only [List.length_cons]; omega) hmid
        rw [maintainLoop, if_neg hv, hat, hrec]
        simp [primeAddresses, hv]

/-- There are as many prime addresses as prime values. -/
theorem primeAddresses_length (vs : List Int) :
    ∀ first, (primeAddresses first vs).length = vs.countP isPrime := by
  induction vs with
  | nil => intro _; rfl
  | cons v rest ih =>
    intro first
    by_cases hv : isPrime v = true
    · simp [primeAddresses, hv, ih]
    · simp [primeAddresses, hv, ih]

/-- Reading the slots at the prime addresses gives the prime values in order. -/
theorem primeAddresses_read (vs : List Int) :
    ∀ pre : List Int, (primeAddresses pre.length vs).map (fun i => (pre ++ vs)[i]?)
      = (vs.filter isPrime).map some := by
  induction vs with
  | nil => intro _; rfl
  | cons v rest ih =>
    intro pre
    have hrec := ih (pre ++ [v])
    simp only [List.length_append, List.length_singleton, List.append_assoc,
      List.singleton_append] at hrec
    by_cases hv : isPrime v = true
    · have hget : (pre ++ v :: rest)[pre.length]? = some v := by
        rw [List.getElem?_append_right (le_refl _)]; simp
      simp [primeAddresses, hv, hrec, hget]
    · simp [primeAddresses, hv, hrec]

/-- On a container whose prime list has the right length, `maintainAddresses`
returns normally, touches only `primeElements`, keeps its length and, while the
slot indices fit `unsigned int`, stores exactly the prime addresses. -/
theorem maintainAddresses_spec (c : MagicalContainer)
    (h : c.primeElements.length = c.ascendedElements.countP isPrime) :
    ∃ ps, maintainAddresses c = .ok { c with primeElements := ps } ∧
      ps.length = c.primeElements.length ∧
      (c.ascendedElements.length ≤ UINT_MOD → ps = primeAddresses 0 c.ascendedElements) := by
  obtain ⟨ps, h1, h2⟩ := maintainLoop_total c.ascendedElements 0 0 c.primeElements (by omega)
  refine ⟨ps, ?_, h2, ?_⟩
  · simp only [maintainAddresses, h1]
  · intro hfit
    have := maintainLoop_exact c.ascendedElements 0 [] c.primeElements [] (le_refl _)
      (by omega) h
    simp only [List.nil_append, List.append_nil, List.length_nil] at this
    rw [this] at h1
    exact (Option.some.inj h1).symm


/-! ### The mutating methods keep the vectors consistent -/

/-- The empty container is consistent. -/
theorem consistent_empty : Consistent MagicalContainer.empty :=
  ⟨List.sorted_nil, List.Perm.refl _, rfl, fun _ => rfl⟩

/-- On a consistent container `addElement` returns normally; the new state has
the element appended to `elements`, the sorted vector re-sorted, and is
consistent again. -/
theorem addElement_spec (c : MagicalContainer) (hc : Consistent c) (element : Int) :
    ∃ ps, addElement c element =
        .ok ⟨c.elements ++ [element],
          (c.ascendedElements ++ [element]).insertionSort (· ≤ ·), ps⟩ ∧
      Consistent ⟨c.elements ++ [element],
          (c.ascendedElements ++ [element]).insertionSort (· ≤ ·), ps⟩ := by
  have hperm := List.perm_insertionSort (· ≤ ·) (c.ascendedElements ++ [element])
  have hcount : ((c.ascendedElements ++ [element]).insertionSort (· ≤ ·)).countP isPrime
      = c.ascendedElements.countP isPrime + (if isPrime element then 1 else 0) := by
    rw [hperm.countP_eq, List.countP_append]
    by_cases hv : isPrime element = true <;> simp [hv]
  by_cases hv : isPrime element = true
  · obtain ⟨ps, h1, h2, h3⟩ := maintainAddresses_spec
      ⟨c.elements ++ [element], (c.ascendedElements ++ [element]).insertionSort (· ≤ ·),
        c.primeElements ++
          [((c.ascendedElements ++ [element]).insertionSort (· ≤ ·)).length - 1]⟩
      (by simp only [hcount, hv, if_true, List.length_append, List.length_singleton,
            hc.primeCount])
    refine ⟨ps, ?_, ?_⟩
    · simp only [addElement, hv, if_true]; exact h1
    · refine ⟨List.sorted_insertionSort _ _, hperm.trans (hc.perm.append_right _), ?_, h3⟩
      simp only [h2, hcount, hv, if_true, List.length_append, List.length_singleton,
        hc.primeCount]
  · obtain ⟨ps, h1, h2, h3⟩ := maintainAddresses_spec
      ⟨c.elements ++ [element], (c.ascendedElements ++ [element]).insertionSort (· ≤ ·),
        c.primeElements⟩
      (by simp only [hcount, hv, hc.primeCount]; simp)
    refine ⟨ps, ?_, ?_⟩
    · simp only [addElement, hv]; exact h1
    · refine ⟨List.sorted_insertionSort _ _, hperm.trans (hc.perm.append_right _), ?_, h3⟩
      simp only [h2, hcount, hv, hc.primeCount]; simp

/-- On a consistent container holding `element`, `removeElement` returns
normally; the new state has the first occurrence erased from `elements` and
from `ascendedElements`, and is consistent again. -/
theorem removeElement_spec (c : MagicalContainer) (hc : Consistent c) (element : Int)
    (hmem : element ∈ c.elements) :
    ∃ ps, removeElement c element =
        .ok ⟨c.elements.erase element, c.ascendedElements.erase element, ps⟩ ∧
      Consistent ⟨c.elements.erase element, c.ascendedElements.erase element, ps⟩ := by
  have hmem' : element ∈ c.ascendedElements := hc.perm.mem_iff.mpr hmem
  have hcount : c.ascendedElements.countP isPrime
      = (c.ascendedElements.erase element).countP isPrime
        + (if isPrime element then 1 else 0) := by
    rw [(List.perm_cons_erase hmem').countP_eq]
    by_cases hv : isPrime element = true <;> simp [hv]
  have hsorted : (c.ascendedElements.erase element).Sorted (· ≤ ·) :=
    List.Pairwise.sublist (List.erase_sublist _ _) hc.sorted
  have hperm : (c.ascendedElements.erase element).Perm (c.elements.erase element) :=
    hc.perm.erase _
  by_cases hv : isPrime element = true
  · simp only [hv, if_true] at hcount
    have hne : c.primeElements ≠ [] := by
      intro h0
      have := hc.primeCount
      rw [h0] at this
      simp only [List.length_nil] at this
      omega
    obtain ⟨ps, h1, h2, h3⟩ := maintainAddresses_spec
      ⟨c.elements.erase element, c.ascendedElements.erase element, c.primeElements.dropLast⟩
      (by simp only [List.length_dropLast, hc.primeCount]; omega)
    refine ⟨ps, ?_, ?_⟩
    · simp only [removeElement, hmem, not_true_eq_false, if_false, hv, if_true, hne]; exact h1
    · refine ⟨hsorted, hperm, ?_, h3⟩
      simp only [h2, List.length_dropLast, hc.primeCount]; omega
  · simp only [hv] at hcount
    obtain ⟨ps, h1, h2, h3⟩ := maintainAddresses_spec
      ⟨c.elements.erase element, c.ascendedElements.erase element, c.primeElements⟩
      (by simp only [hc.primeCount]; simpa using hcount)
    refine ⟨ps, ?_, ?_⟩
    · simp only [removeElement, hmem, not_true_eq_false, if_false, hv]; exact h1
    · refine ⟨hsorted, hperm, ?_, h3⟩
      simp only [h2, hc.primeCount]; simpa using hcount

/-- A `removeElement` for an absent value leaves with the not-found error in the state it was called in. -/
theorem removeElement_absent (c : MagicalContainer) (element : Int)
    (h : element ∉ c.elements) : removeElement c element = .throw c .notFound := by
  simp only [removeElement, h, not_false_eq_true, if_true]

/-- From a consistent container every call has a successor state, and it is consistent. -/
theorem step_consistent (c : MagicalContainer) (hc : Consistent c) (call : Call) :
    ∃ next, step c call = some next ∧ Consistent next := by
  cases call with
  | add element =>
    obtain ⟨ps, h1, h2⟩ := addElement_spec c hc element
    exact ⟨_, by simp only [step, Call.exec, h1, Outcome.ok], h2⟩
  | remove element =>
    by_cases hmem : element ∈ c.elements
    · obtain ⟨ps, h1, h2⟩ := removeElement_spec c hc element hmem
      exact ⟨_, by simp only [step, Call.exec, h1, Outcome.ok], h2⟩
    · exact ⟨c, by simp only [step, Call.exec, removeElement_absent c element hmem,
        Outcome.throw], hc⟩

/-- From a consistent container every sequence of calls runs to a consistent container. -/
theorem runFrom_consistent (calls : List Call) :
    ∀ c, Consistent c → ∃ final, runFrom c calls = some final ∧ Consistent final := by
  induction calls with
  | nil => intro c hc; exact ⟨c, rfl, hc⟩
  | cons call rest ih =>
    intro c hc
    obtain ⟨next, h1, h2⟩ := step_consistent c hc call
    obtain ⟨final, h3, h4⟩ := ih next h2
    exact ⟨final, by simp only [runFrom, h1, h3], h4⟩

/-- Every sequence of calls on an empty container runs to a consistent container. -/
theorem run_consistent (calls : List Call) :
    ∃ c, run calls = some c ∧ Consistent c :=
  runFrom_consistent calls _ consistent_empty

/-- The sorted vector of a consistent container is its `elements` sorted. -/
theorem consistent_ascended_eq {c : MagicalContainer} (hc : Consistent c) :
    c.ascendedElements = c.elements.insertionSort (· ≤ ·) :=
  List.eq_of_perm_of_sorted (hc.perm.trans (List.perm_insertionSort _ _).symm) hc.sorted
    (List.sorted_insertionSort _ _)

/-- C1: for every finite sequence of `addElement` and `removeElement` calls
on an empty container (failed removals included) and every `k`, the first `k`
calls run to a state, and in that state `ascendedElements` is sorted
non-decreasing, is a permutation of `elements` and has the length of
`elements`; it is `elements` sorted. -/
theorem sorted_invariant (calls : List Call) (k : Nat) :
    ∃ c, run (calls.take k) = some c ∧
      c.ascendedElements.Sorted (· ≤ ·) ∧
      c.ascendedElements.Perm c.elements ∧
      c.ascendedElements.length = c.elements.length ∧
      c.ascendedElements = c.elements.insertionSort (· ≤ ·) := by
  obtain ⟨c, h1, hc⟩ := run_consistent (calls.take k)
  exact ⟨c, h1, hc.sorted, hc.perm, hc.perm.length_eq, consistent_ascended_eq hc⟩

/-- The states a run passes through are the results of the runs of its prefixes. -/
theorem runFrom_append (calls₁ calls₂ : List Call) :
    ∀ c, runFrom c (calls₁ ++ calls₂) = (runFrom c calls₁).bind fun mid => runFrom mid calls₂ := by
  induction calls₁ with
  | nil => intro c; rfl
  | cons call rest ih =>
    intro c
    cases hstep : step c call with
    | none => simp [runFrom, hstep]
    | some next => simp [runFrom, hstep, ih next]

/-! ### The prime traversal -/

/-- Reading through the prime list of a consistent container of representable
size gives the prime values of the sorted vector, in order. -/
theorem consistent_primeValues {c : MagicalContainer} (hc : Consistent c)
    (hfit : c.elements.length < UINT_MOD) :
    PrimeIterator.values c = ((c.ascendedElements.filter isPrime).map Except.ok) := by
  have hlen : c.ascendedElements.length = c.elements.length := hc.perm.length_eq
  have hps := hc.addresses (by omega)
  have hcnt : c.primeElements.length ≤ c.ascendedElements.length := by
    rw [hc.primeCount]; exact List.countP_le_length _
  have hend : (PrimeIterator.end_ ⟨c, 0⟩).position = c.primeElements.length := by
    simp only [PrimeIterator.end_, PrimeIterator.ofPosition]
    exact Nat.mod_eq_of_lt (by omega)
  have hread := primeAddresses_read c.ascendedElements []
  simp only [List.length_nil, List.nil_append] at hread
  rw [← hps] at hread
  have hA : PrimeIterator.values c
      = (c.primeElements.map (fun i => c.ascendedElements[i]?)).map
          (fun o => match o with
            | some v => Except.ok v
            | none => Except.error Error.undefinedBehaviour) := by
    unfold PrimeIterator.values
    rw [hend]
    apply List.ext_getElem
    · simp
    · intro k h1 h2
      simp only [List.length_map, List.length_range] at h1
      simp only [List.getElem_map, List.getElem_range, PrimeIterator.deref,
        List.getElem?_eq_getElem h1]
  rw [hA, hread, List.map_map]
  rfl

/-- C2: in every container state reached from empty by `addElement` and
`removeElement` calls (such a state always exists), while the number of
elements is representable as `unsigned int`, dereferencing the
`PrimeIterator` at the cursors `0, ..., end() - 1` yields exactly the prime
values of `elements` in non-decreasing order: the sorted `elements` filtered
by `isPrime`. -/
theorem prime_invariant (calls : List Call) :
    ∃ c, run calls = some c ∧
      (c.elements.length < UINT_MOD →
        PrimeIterator.values c
          = ((c.elements.insertionSort (· ≤ ·)).filter isPrime).map Except.ok) := by
  obtain ⟨c, h1, hc⟩ := run_consistent calls
  refine ⟨c, h1, fun hfit => ?_⟩
  rw [consistent_primeValues hc hfit, consistent_ascended_eq hc]

/-- Witness for C2: after inserting 2, 1, 8, 6, -3, 4 the prime traversal is exactly `[2]`. -/
theorem prime_invariant_witness :
    ∃ c, run [.add 2, .add 1, .add 8, .add 6, .add (-3), .add 4] = some c ∧
      c.elements.length < UINT_MOD ∧ PrimeIterator.values c = [Except.ok 2] := by
  obtain ⟨c, h1, h2⟩ := prime_invariant [.add 2, .add 1, .add 8, .add 6, .add (-3), .add 4]
  have hc : c = ⟨[2, 1, 8, 6, -3, 4], [-3, 1, 2, 4, 6, 8], [2]⟩ := by
    have hrun : run [.add 2, .add 1, .add 8, .add 6, .add (-3), .add 4]
        = some ⟨[2, 1, 8, 6, -3, 4], [-3, 1, 2, 4, 6, 8], [2]⟩ := by decide
    rw [hrun] at h1
    exact (Option.some.inj h1).symm
  subst hc
  have hfit : ([2, 1, 8, 6, -3, 4] : List Int).length < UINT_MOD := by decide
  exact ⟨_, h1, hfit, by rw [h2 hfit]; rfl⟩


/-! ### Failure of `removeElement` and the size -/

/-- The only errors `maintainAddresses` can leave with is undefined behaviour. -/
theorem maintainAddresses_error (c : MagicalContainer) :
    (maintainAddresses c).error = none ∨
      (maintainAddresses c).error = some Error.undefinedBehaviour := by
  unfold maintainAddresses
  cases maintainLoop c.ascendedElements 0 0 c.primeElements with
  | none => right; rfl
  | some ps => left; rfl

/-- A `removeElement` for a value that is present does not leave with the not-found error. -/
theorem removeElement_present_error (c : MagicalContainer) (element : Int)
    (h : element ∈ c.elements) : (removeElement c element).error ≠ some Error.notFound := by
  unfold removeElement
  simp only [h, not_true_eq_false, if_false]
  split_ifs with h1 h2
  · simp [Outcome.throw]
  · rcases maintainAddresses_error
      { elements := c.elements.erase element,
        ascendedElements := c.ascendedElements.erase element,
        primeElements := c.primeElements.dropLast } with h | h <;> rw [h] <;> simp
  · rcases maintainAddresses_error
      { elements := c.elements.erase element,
        ascendedElements := c.ascendedElements.erase element,
        primeElements := c.primeElements } with h | h <;> rw [h] <;> simp

/-- C5: in every container state `removeElement(v)` leaves with the not-found
error if and only if `v` does not occur in `elements`; and when it does, the
container it leaves behind is the one it was called on: `elements`,
`ascendedElements`, the prime list and `size()` are unchanged. -/
theorem removeElement_notFound (c : MagicalContainer) (v : Int) :
    ((removeElement c v).error = some Error.notFound ↔ v ∉ c.elements) ∧
    ((removeElement c v).error = some Error.notFound →
      (removeElement c v).state = c ∧
      (removeElement c v).state.elements = c.elements ∧
      (removeElement c v).state.ascendedElements = c.ascendedElements ∧
      (removeElement c v).state.primeElements = c.primeElements ∧
      (removeElement c v).state.size = c.size) := by
  have hiff : (removeElement c v).error = some Error.notFound ↔ v ∉ c.elements := by
    constructor
    · intro h hmem
      exact removeElement_present_error c v hmem h
    · intro h
      rw [removeElement_absent c v h]; rfl
  refine ⟨hiff, fun h => ?_⟩
  have hst : (removeElement c v).state = c := by
    rw [removeElement_absent c v (hiff.mp h)]; rfl
  rw [hst]
  exact ⟨rfl, rfl, rfl, rfl, rfl⟩

/-- Witness for C5: `remove(99)` on the container holding 2, 1, 8 fails with
not-found and leaves the container, and with it `size()`, as it was. -/
theorem removeElement_notFound_witness :
    (removeElement ⟨[2, 1, 8], [1, 2, 8], [1]⟩ 99).error = some Error.notFound ∧
    (removeElement ⟨[2, 1, 8], [1, 2, 8], [1]⟩ 99).state = ⟨[2, 1, 8], [1, 2, 8], [1]⟩ ∧
    (removeElement ⟨[2, 1, 8], [1, 2, 8], [1]⟩ 99).state.size = 3 := by
  have h := removeElement_notFound ⟨[2, 1, 8], [1, 2, 8], [1]⟩ 99
  have herr : (removeElement ⟨[2, 1, 8], [1, 2, 8], [1]⟩ 99).error = some Error.notFound :=
    h.1.mpr (by decide)
  obtain ⟨h1, _, _, _, h5⟩ := h.2 herr
  exact ⟨herr, h1, by rw [h5]; decide⟩

/-- Running calls from a consistent container: the final number of elements
is the initial one plus the inserts minus the successful removals. -/
theorem runFrom_tally (calls : List Call) :
    ∀ c, Consistent c → ∃ final, runFrom c calls = some final ∧ Consistent final ∧
      final.elements.length + (tally c calls).2 = c.elements.length + (tally c calls).1 := by
  induction calls with
  | nil => intro c hc; exact ⟨c, rfl, hc, rfl⟩
  | cons call rest ih =>
    intro c hc
    cases call with
    | add element =>
      obtain ⟨ps, h1, h2⟩ := addElement_spec c hc element
      have hstep : step c (.add element) = some ⟨c.elements ++ [element],
          (c.ascendedElements ++ [element]).insertionSort (· ≤ ·), ps⟩ := by
        simp only [step, Call.exec, h1, Outcome.ok]
      obtain ⟨final, h3, h4, h5⟩ := ih _ h2
      refine ⟨final, by simp only [runFrom, hstep, h3], h4, ?_⟩
      simp only [tally, hstep]
      simp only [List.length_append, List.length_singleton] at h5
      omega
    | remove element =>
      by_cases hmem : element ∈ c.elements
      · obtain ⟨ps, h1, h2⟩ := removeElement_spec c hc element hmem
        have hstep : step c (.remove element) = some ⟨c.elements.erase element,
            c.ascendedElements.erase element, ps⟩ := by
          simp only [step, Call.exec, h1, Outcome.ok]
        have herr : ((Call.remove element).exec c).error = none := by
          simp only [Call.exec, h1, Outcome.ok]
        obtain ⟨final, h3, h4, h5⟩ := ih _ h2
        refine ⟨final, by simp only [runFrom, hstep, h3], h4, ?_⟩
        simp only [tally, hstep, herr, if_true]
        have hpos : 0 < c.elements.length := List.length_pos_of_mem hmem
        simp only [List.length_erase_of_mem hmem] at h5
        omega
      · have h1 := removeElement_absent c element hmem
        have hstep : step c (.remove element) = some c := by
          simp only [step, Call.exec, h1, Outcome.throw]
        have herr : ((Call.remove element).exec c).error ≠ none := by
          simp only [Call.exec, h1, Outcome.throw]; simp
        obtain ⟨final, h3, h4, h5⟩ := ih _ hc
        refine ⟨final, by simp only [runFrom, hstep, h3], h4, ?_⟩
        simp only [tally, hstep, herr, if_false]
        exact h5

/-- C10: after any sequence of calls on an empty container the run has reached
a state `c` in which the number of elements is the number of inserts minus the
number of successful removals; `size()` is that number whenever it is
representable as `unsigned int`; a further `addElement` returns normally with
one element more, and a further `removeElement` of a present value returns
normally with one element less. -/
theorem size_tracking (calls : List Call) :
    ∃ c, run calls = some c ∧
      c.elements.length + (tally MagicalContainer.empty calls).2
        = (tally MagicalContainer.empty calls).1 ∧
      (c.elements.length < UINT_MOD →
        c.size = c.elements.length ∧
        c.size = (tally MagicalContainer.empty calls).1
          - (tally MagicalContainer.empty calls).2) ∧
      (∀ v, (addElement c v).error = none ∧
        (addElement c v).state.elements.length = c.elements.length + 1 ∧
        (c.elements.length + 1 < UINT_MOD → (addElement c v).state.size = c.size + 1)) ∧
      (∀ v, v ∈ c.elements → (removeElement c v).error = none ∧
        (removeElement c v).state.elements.length + 1 = c.elements.length ∧
        (c.elements.length < UINT_MOD → (removeElement c v).state.size + 1 = c.size)) := by
  obtain ⟨c, h1, hc, h2⟩ := runFrom_tally calls _ consistent_empty
  have h2' : c.elements.length + (tally MagicalContainer.empty calls).2
      = (tally MagicalContainer.empty calls).1 := by
    simpa [MagicalContainer.empty] using h2
  refine ⟨c, h1, h2', ?_, ?_, ?_⟩
  · intro hfit
    have hs : c.size = c.elements.length := Nat.mod_eq_of_lt hfit
    exact ⟨hs, by rw [hs]; omega⟩
  · intro v
    obtain ⟨ps, h3, _⟩ := addElement_spec c hc v
    rw [h3]
    refine ⟨rfl, by simp [Outcome.ok], ?_⟩
    intro hfit
    simp only [Outcome.ok, MagicalContainer.size, List.length_append, List.length_singleton]
    rw [Nat.mod_eq_of_lt hfit, Nat.mod_eq_of_lt (by omega)]
  · intro v hmem
    obtain ⟨ps, h3, _⟩ := removeElement_spec c hc v hmem
    rw [h3]
    have hpos : 0 < c.elements.length := List.length_pos_of_mem hmem
    refine ⟨rfl, by simp only [Outcome.ok, List.length_erase_of_mem hmem]; omega, ?_⟩
    intro hfit
    simp only [Outcome.ok, MagicalContainer.size, List.length_erase_of_mem hmem]
    rw [Nat.mod_eq_of_lt hfit, Nat.mod_eq_of_lt (by omega)]
    omega

/-- Witness for C10: five inserts followed by the removal of two distinct
present values give `size() = 3`. -/
theorem size_tracking_witness :
    ∃ c, run [.add 2, .add 1, .add 8, .add 6, .add (-3), .remove 1, .remove 6] = some c ∧
      tally MagicalContainer.empty
        [.add 2, .add 1, .add 8, .add 6, .add (-3), .remove 1, .remove 6] = (5, 2) ∧
      c.size = 3 := by
  obtain ⟨c, h1, _, h3, _⟩ :=
    size_tracking [.add 2, .add 1, .add 8, .add 6, .add (-3), .remove 1, .remove 6]
  have hc : c = ⟨[2, 8, -3], [-3, 2, 8], [1]⟩ := by
    have hrun : run [.add 2, .add 1, .add 8, .add 6, .add (-3), .remove 1, .remove 6]
        = some ⟨[2, 8, -3], [-3, 2, 8], [1]⟩ := by decide
    rw [hrun] at h1
    exact (Option.some.inj h1).symm
  subst hc
  have ht : tally MagicalContainer.empty
      [.add 2, .add 1, .add 8, .add 6, .add (-3), .remove 1, .remove 6] = (5, 2) := by decide
  refine ⟨_, h1, ht, ?_⟩
  rw [(h3 (by decide)).2, ht]
  rfl


/-! ### The ascending traversal -/

/-- Inserting the values of `xs` into a consistent container returns normally
every time and appends them to `elements`. -/
theorem runFrom_adds (xs : List Int) :
    ∀ c, Consistent c → ∃ final, runFrom c (xs.map Call.add) = some final ∧
      Consistent final ∧ final.elements = c.elements ++ xs := by
  induction xs with
  | nil => intro c hc; exact ⟨c, rfl, hc, by simp⟩
  | cons x rest ih =>
    intro c hc
    obtain ⟨ps, h1, h2⟩ := addElement_spec c hc x
    have hstep : step c (.add x) = some ⟨c.elements ++ [x],
        (c.ascendedElements ++ [x]).insertionSort (· ≤ ·), ps⟩ := by
      simp only [step, Call.exec, h1, Outcome.ok]
    obtain ⟨final, h3, h4, h5⟩ := ih _ h2
    exact ⟨final, by simp only [List.map_cons, runFrom, hstep, h3], h4, by simp [h5]⟩

/-- Below the end cursor the ascending `++` returns normally with the cursor one further. -/
theorem ascending_inc_below (it : AscendingIterator)
    (h : it.position < it.end_.position) :
    it.inc = .ok ⟨it.container, it.position + 1⟩ := by
  have hend : it.end_.position < UINT_MOD := by
    simp only [AscendingIterator.end_, AscendingIterator.ofPosition]
    exact Nat.mod_lt _ (by decide)
  have hmod : (it.position + 1) % UINT_MOD = it.position + 1 := Nat.mod_eq_of_lt (by omega)
  simp only [AscendingIterator.inc, ge_iff_le, Nat.not_le.mpr h, if_false, hmod]

/-- The end cursor of an ascending iterator over a vector of representable length. -/
theorem ascending_end_position (c : MagicalContainer) (p : Nat)
    (hfit : c.ascendedElements.length < UINT_MOD) :
    (AscendingIterator.end_ ⟨c, p⟩).position = c.ascendedElements.length := by
  simp only [AscendingIterator.end_, AscendingIterator.ofPosition]
  exact Nat.mod_eq_of_lt hfit

/-- With fuel for the remaining slots, the ascending loop entered at cursor `p`
collects the slots from `p` on. -/
theorem ascending_collect_from (c : MagicalContainer)
    (hfit : c.ascendedElements.length < UINT_MOD) (fuel : Nat) :
    ∀ p, p ≤ c.ascendedElements.length → c.ascendedElements.length - p < fuel →
      AscendingIterator.collect fuel ⟨c, p⟩ = .ok (c.ascendedElements.drop p) := by
  induction fuel with
  | zero => intro p _ h; omega
  | succ fuel ih =>
    intro p hp hfuel
    have hend := ascending_end_position c p hfit
    rcases Nat.eq_or_lt_of_le hp with heq | hlt
    · have hne : AscendingIterator.ne ⟨c, p⟩ (AscendingIterator.end_ ⟨c, p⟩) = false := by
        simp only [AscendingIterator.ne, hend]; simp [heq]
      rw [AscendingIterator.collect, if_neg (by rw [hne]; simp), heq, List.drop_length]
    · have hne : AscendingIterator.ne ⟨c, p⟩ (AscendingIterator.end_ ⟨c, p⟩) = true := by
        simp [AscendingIterator.ne, hend]; omega
      have hderef : AscendingIterator.deref ⟨c, p⟩ = .ok c.ascendedElements[p] := by
        simp only [AscendingIterator.deref, List.getElem?_eq_getElem hlt]
      have hinc := ascending_inc_below ⟨c, p⟩ (by rw [hend]; exact hlt)
      have hrec := ih (p + 1) hlt (by omega)
      simp only [AscendingIterator.collect, hne, if_true, hderef, hinc, Outcome.ok, hrec]
      rw [← List.drop_eq_getElem_cons hlt]

/-- Advancing an ascending iterator `k` times within the vector moves the cursor by `k`. -/
theorem ascending_advance_within (c : MagicalContainer)
    (hfit : c.ascendedElements.length < UINT_MOD) (k : Nat) :
    ∀ p, p + k ≤ c.ascendedElements.length →
      AscendingIterator.advance k ⟨c, p⟩ = .ok ⟨c, p + k⟩ := by
  induction k with
  | zero => intro p _; rfl
  | succ k ih =>
    intro p hp
    have hend := ascending_end_position c p hfit
    have hinc := ascending_inc_below ⟨c, p⟩ (by rw [hend]; show p < _; omega)
    have hrec := ih (p + 1) (by omega)
    simp only [AscendingIterator.advance, hinc, Outcome.ok]
    rw [hrec]
    simp only [Outcome.ok, Nat.add_assoc, Nat.add_comm 1 k]

/-- C6: for every list `xs` of integers whose length is representable as
`unsigned int`, inserting its values in order into an empty container returns
normally every time, and for an ascending iterator bound to the resulting
container, wherever its own cursor `cur` stands: `begin()` is the iterator at
cursor 0 of that container; the loop from `begin()` to `end()` (dereference,
then advance) yields `xs` sorted non-decreasing for any fuel above `len(xs)`;
the cursor is not at `end()` after fewer than `len(xs)` advances, and
`len(xs)` advances all return normally and end at `end()`. -/
theorem ascending_traversal (xs : List Int) (hfit : xs.length < UINT_MOD) :
    ∃ c, insertAll xs = some c ∧ ∀ cur : Nat,
      (AscendingIterator.mk c cur).begin = ⟨c, 0⟩ ∧
      (∀ fuel, xs.length < fuel →
        AscendingIterator.collect fuel (AscendingIterator.mk c cur).begin
          = .ok (xs.insertionSort (· ≤ ·))) ∧
      (∀ k, k < xs.length →
        AscendingIterator.advance k (AscendingIterator.mk c cur).begin = .ok ⟨c, k⟩ ∧
        AscendingIterator.ne ⟨c, k⟩ (AscendingIterator.mk c cur).end_ = true) ∧
      AscendingIterator.advance xs.length (AscendingIterator.mk c cur).begin
        = .ok (AscendingIterator.mk c cur).end_ := by
  obtain ⟨c, h1, hc, h2⟩ := runFrom_adds xs _ consistent_empty
  simp only [MagicalContainer.empty, List.nil_append] at h2
  have hlen : c.ascendedElements.length = xs.length := by rw [hc.perm.length_eq, h2]
  have hfit' : c.ascendedElements.length < UINT_MOD := by omega
  refine ⟨c, h1, fun cur => ?_⟩
  have hend := ascending_end_position c cur hfit'
  have hbegin : (AscendingIterator.mk c cur).begin = ⟨c, 0⟩ := rfl
  refine ⟨hbegin, ?_, ?_, ?_⟩
  · intro fuel hfuel
    have := ascending_collect_from c hfit' fuel 0 (Nat.zero_le _) (by omega)
    simp only [List.drop_zero] at this
    rw [hbegin, ← h2, ← consistent_ascended_eq hc]
    exact this
  · intro k hk
    have := ascending_advance_within c hfit' k 0 (by omega)
    simp only [Nat.zero_add] at this
    refine ⟨by rw [hbegin]; exact this, ?_⟩
    simp only [AscendingIterator.ne, hend, hlen, bne_iff_ne]
    omega
  · have := ascending_advance_within c hfit' xs.length 0 (by omega)
    simp only [Nat.zero_add] at this
    rw [hbegin, this]
    simp only [AscendingIterator.end_, AscendingIterator.ofPosition,
      hlen, Nat.mod_eq_of_lt hfit]

/-- Witness for C6: inserting 2, 1, 8, 6, -3, 4 and iterating ascending from
the `begin()` of an iterator that stands at cursor 4 yields -3, 1, 2, 4, 6, 8. -/
theorem ascending_traversal_witness :
    ∃ c, insertAll [2, 1, 8, 6, -3, 4] = some c ∧
      (AscendingIterator.mk c 4).begin = ⟨c, 0⟩ ∧
      AscendingIterator.collect 7 (AscendingIterator.mk c 4).begin
        = .ok [-3, 1, 2, 4, 6, 8] ∧
      AscendingIterator.advance 6 (AscendingIterator.mk c 4).begin
        = .ok (AscendingIterator.mk c 4).end_ := by
  obtain ⟨c, h1, h2⟩ := ascending_traversal [2, 1, 8, 6, -3, 4] (by decide)
  obtain ⟨hb, hcol, _, hadv⟩ := h2 4
  exact ⟨c, h1, hb, hcol 7 (by decide), hadv⟩


/-! ### The side-cross traversal -/

/-- Every visited position lies in the vector. -/
theorem sideCrossPosition_lt (n k : Nat) (hk : k < n) : sideCrossPosition n k < n := by
  unfold sideCrossPosition
  split_ifs <;> omega

/-- No position is visited twice. -/
theorem sideCrossPosition_inj (n j k : Nat) (hj : j < n) (hk : k < n)
    (h : sideCrossPosition n j = sideCrossPosition n k) : j = k := by
  unfold sideCrossPosition at h
  split_ifs at h <;> omega

/-- Every position of the vector is visited. -/
theorem sideCrossPosition_surj (n p : Nat) (hp : p < n) :
    ∃ k, k < n ∧ sideCrossPosition n k = p := by
  by_cases h : 2 * p < n
  · refine ⟨2 * p, h, ?_⟩
    unfold sideCrossPosition
    split_ifs <;> omega
  · refine ⟨2 * (n - 1 - p) + 1, by omega, ?_⟩
    unfold sideCrossPosition
    split_ifs <;> omega

/-- The end cursor of a side-cross iterator over a vector of representable length. -/
theorem sideCross_end_position (c : MagicalContainer) (p : Nat)
    (hfit : c.ascendedElements.length < UINT_MOD) :
    (SideCrossIterator.end_ ⟨c, p⟩).position = c.ascendedElements.length := by
  simp only [SideCrossIterator.end_, SideCrossIterator.ofPosition]
  exact Nat.mod_eq_of_lt hfit

/-- One side-cross `++` at the `k`-th visited position returns normally and
moves the cursor to the next position of the order, or to the end cursor after
the last one. -/
theorem sideCross_inc_cursor (c : MagicalContainer)
    (hfit : c.ascendedElements.length < UINT_MOD) (k : Nat)
    (hk : k < c.ascendedElements.length) :
    SideCrossIterator.inc ⟨c, sideCrossCursor c.ascendedElements.length k⟩
      = .ok ⟨c, sideCrossCursor c.ascendedElements.length (k + 1)⟩ := by
  have hend := sideCross_end_position c
    (sideCrossCursor c.ascendedElements.length k) hfit
  generalize hn : c.ascendedElements.length = n at *
  simp only [SideCrossIterator.inc, hend, hn, Nat.mod_eq_of_lt hfit, Outcome.ok, Outcome.throw]
  simp only [UINT_MOD] at hfit
  simp only [sideCrossCursor, sideCrossPosition, usub, UINT_MOD, hk, if_true]
  split_ifs <;> first
    | omega
    | rfl
    | (congr 2; omega)

/-- Advancing a side-cross iterator `k` times from the `j`-th visited position
reaches the `(j + k)`-th. -/
theorem sideCross_advance_cursor (c : MagicalContainer)
    (hfit : c.ascendedElements.length < UINT_MOD) (k : Nat) :
    ∀ j, j + k ≤ c.ascendedElements.length →
      SideCrossIterator.advance k ⟨c, sideCrossCursor c.ascendedElements.length j⟩
        = .ok ⟨c, sideCrossCursor c.ascendedElements.length (j + k)⟩ := by
  induction k with
  | zero => intro j _; rfl
  | succ k ih =>
    intro j hj
    have hinc := sideCross_inc_cursor c hfit j (by omega)
    have hrec := ih (j + 1) (by omega)
    simp only [SideCrossIterator.advance, hinc, Outcome.ok]
    rw [hrec]
    simp only [Outcome.ok, Nat.add_assoc, Nat.add_comm 1 k]

/-- With fuel for the remaining positions, the side-cross loop entered at the
`j`-th visited position collects the values at the positions visited from then on. -/
theorem sideCross_collect_from (c : MagicalContainer)
    (hfit : c.ascendedElements.length < UINT_MOD) (fuel : Nat) :
    ∀ j, j ≤ c.ascendedElements.length → c.ascendedElements.length - j < fuel →
      SideCrossIterator.collect fuel ⟨c, sideCrossCursor c.ascendedElements.length j⟩
        = .ok ((List.range' j (c.ascendedElements.length - j)).filterMap fun k =>
            c.ascendedElements[sideCrossPosition c.ascendedElements.length k]?) := by
  induction fuel with
  | zero => intro j _ h; omega
  | succ fuel ih =>
    intro j hj hfuel
    have hend := sideCross_end_position c
      (sideCrossCursor c.ascendedElements.length j) hfit
    rcases Nat.eq_or_lt_of_le hj with heq | hlt
    · have hcur : sideCrossCursor c.ascendedElements.length j = c.ascendedElements.length := by
        simp [sideCrossCursor, heq]
      have hne : SideCrossIterator.ne ⟨c, sideCrossCursor c.ascendedElements.length j⟩
          (SideCrossIterator.end_ ⟨c, sideCrossCursor c.ascendedElements.length j⟩) = false := by
        simp only [SideCrossIterator.ne, hend]; simp [hcur]
      have hzero : c.ascendedElements.length - j = 0 := by omega
      rw [SideCrossIterator.collect, if_neg (by rw [hne]; simp), hzero]
      rfl
    · have hcur : sideCrossCursor c.ascendedElements.length j
          = sideCrossPosition c.ascendedElements.length j := by
        simp [sideCrossCursor, hlt]
      have hpos := sideCrossPosition_lt _ j hlt
      have hne : SideCrossIterator.ne ⟨c, sideCrossCursor c.ascendedElements.length j⟩
          (SideCrossIterator.end_ ⟨c, sideCrossCursor c.ascendedElements.length j⟩) = true := by
        simp only [SideCrossIterator.ne, hend]
        rw [hcur]
        simp only [bne_iff_ne]
        omega
      have hget : c.ascendedElements[sideCrossPosition c.ascendedElements.length j]?
          = some c.ascendedElements[sideCrossPosition c.ascendedElements.length j] :=
        List.getElem?_eq_getElem hpos
      have hderef : SideCrossIterator.deref ⟨c, sideCrossCursor c.ascendedElements.length j⟩
          = .ok c.ascendedElements[sideCrossPosition c.ascendedElements.length j] := by
        simp only [SideCrossIterator.deref, hcur, hget]
      have hinc := sideCross_inc_cursor c hfit j hlt
      have hrec := ih (j + 1) hlt (by omega)
      have hsucc : c.ascendedElements.length - j = (c.ascendedElements.length - (j + 1)) + 1 := by
        omega
      rw [SideCrossIterator.collect, if_pos hne]
      simp only [hderef, hinc, Outcome.ok, hrec]
      rw [hsucc, List.range'_succ, List.filterMap_cons, hget]

/-- The side-cross cursor before any advance is the cursor of `begin()`. -/
theorem sideCrossCursor_zero (n : Nat) : sideCrossCursor n 0 = 0 := by
  unfold sideCrossCursor sideCrossPosition
  split_ifs <;> omega

/-- C3: for every container whose sorted vector has a length `n` representable
as `unsigned int` (any `n ≥ 0`, odd or even) and every `SideCrossIterator`
bound to it, wherever its own cursor `cur` stands: `begin()` is the iterator
at cursor 0 of that container; started at `begin()` the iterator is, after
`k < n` advances (all returning normally), at position `k / 2` for even `k`
and `n - 1 - (k - 1) / 2` for odd `k`, which is inside the vector, is not the
end cursor and dereferences to the value stored there; these positions are
pairwise different and cover `[0, n)`; after exactly `n` advances the cursor
is `end()`; and the loop from `begin()` to `end()` yields the values in the
order `v0, v_{n-1}, v1, v_{n-2}, ...` for any fuel above `n`. -/
theorem sideCross_order (c : MagicalContainer) (cur : Nat)
    (hfit : c.ascendedElements.length < UINT_MOD) :
    (SideCrossIterator.mk c cur).begin = ⟨c, 0⟩ ∧
    (∀ k, k < c.ascendedElements.length →
      SideCrossIterator.advance k (SideCrossIterator.mk c cur).begin
        = .ok ⟨c, sideCrossPosition c.ascendedElements.length k⟩ ∧
      sideCrossPosition c.ascendedElements.length k
        = (if k % 2 = 0 then k / 2 else c.ascendedElements.length - 1 - (k - 1) / 2) ∧
      sideCrossPosition c.ascendedElements.length k < c.ascendedElements.length ∧
      SideCrossIterator.ne ⟨c, sideCrossPosition c.ascendedElements.length k⟩
        (SideCrossIterator.mk c cur).end_ = true ∧
      ∃ v, c.ascendedElements[sideCrossPosition c.ascendedElements.length k]? = some v ∧
        SideCrossIterator.deref ⟨c, sideCrossPosition c.ascendedElements.length k⟩ = .ok v) ∧
    (∀ j k, j < c.ascendedElements.length → k < c.ascendedElements.length →
      sideCrossPosition c.ascendedElements.length j
        = sideCrossPosition c.ascendedElements.length k → j = k) ∧
    (∀ p, p < c.ascendedElements.length →
      ∃ k, k < c.ascendedElements.length ∧ sideCrossPosition c.ascendedElements.length k = p) ∧
    SideCrossIterator.advance c.ascendedElements.length (SideCrossIterator.mk c cur).begin
      = .ok (SideCrossIterator.mk c cur).end_ ∧
    (∀ fuel, c.ascendedElements.length < fuel →
      SideCrossIterator.collect fuel (SideCrossIterator.mk c cur).begin
        = .ok (sideCrossOrder c.ascendedElements)) := by
  have hend := sideCross_end_position c cur hfit
  have hzero : (SideCrossIterator.mk c cur).begin = ⟨c, 0⟩ := rfl
  have hbegin : (SideCrossIterator.mk c cur).begin
      = ⟨c, sideCrossCursor c.ascendedElements.length 0⟩ := by
    rw [sideCrossCursor_zero]; rfl
  refine ⟨hzero, ?_, ?_, ?_, ?_, ?_⟩
  · intro k hk
    have hadv := sideCross_advance_cursor c hfit k 0 (by omega)
    have hcur : sideCrossCursor c.ascendedElements.length k
        = sideCrossPosition c.ascendedElements.length k := by
      simp [sideCrossCursor, hk]
    have hpos := sideCrossPosition_lt _ k hk
    rw [Nat.zero_add, hcur] at hadv
    refine ⟨by rw [hbegin]; exact hadv, rfl, hpos, ?_, ?_⟩
    · simp only [SideCrossIterator.ne, hend, bne_iff_ne]
      omega
    · refine ⟨c.ascendedElements[sideCrossPosition c.ascendedElements.length k],
        List.getElem?_eq_getElem hpos, ?_⟩
      simp only [SideCrossIterator.deref, List.getElem?_eq_getElem hpos]
  · intro j k hj hk h
    exact sideCrossPosition_inj _ j k hj hk h
  · intro p hp
    exact sideCrossPosition_surj _ p hp
  · have hadv := sideCross_advance_cursor c hfit c.ascendedElements.length 0 (by omega)
    rw [hbegin, hadv]
    simp only [Nat.zero_add, sideCrossCursor, lt_self_iff_false, if_false,
      SideCrossIterator.end_, SideCrossIterator.ofPosition,
      Nat.mod_eq_of_lt hfit]
  · intro fuel hfuel
    have hcol := sideCross_collect_from c hfit fuel 0 (Nat.zero_le _) (by omega)
    rw [hbegin, hcol]
    simp only [Nat.sub_zero, sideCrossOrder, List.range_eq_range']

/-- Witness for C3: for the sorted vector -3, 1, 2, 4, 6, 8 the side-cross
traversal from the `begin()` of an iterator that stands at cursor 4 is
-3, 8, 1, 6, 2, 4, ending after exactly six advances. -/
theorem sideCross_order_witness :
    (SideCrossIterator.mk ⟨[2, 1, 8, 6, -3, 4], [-3, 1, 2, 4, 6, 8], [2]⟩ 4).begin
      = ⟨⟨[2, 1, 8, 6, -3, 4], [-3, 1, 2, 4, 6, 8], [2]⟩, 0⟩ ∧
    SideCrossIterator.collect 7
        (SideCrossIterator.mk ⟨[2, 1, 8, 6, -3, 4], [-3, 1, 2, 4, 6, 8], [2]⟩ 4).begin
      = .ok [-3, 8, 1, 6, 2, 4] ∧
    SideCrossIterator.advance 6
        (SideCrossIterator.mk ⟨[2, 1, 8, 6, -3, 4], [-3, 1, 2, 4, 6, 8], [2]⟩ 4).begin
      = .ok (SideCrossIterator.mk ⟨[2, 1, 8, 6, -3, 4], [-3, 1, 2, 4, 6, 8], [2]⟩ 4).end_ := by
  obtain ⟨h0, _, _, _, h4, h5⟩ :=
    sideCross_order ⟨[2, 1, 8, 6, -3, 4], [-3, 1, 2, 4, 6, 8], [2]⟩ 4 (by decide)
  exact ⟨h0, (h5 7 (by decide)).trans (by rfl), h4⟩


/-! ### Errors of the iterators -/

/-- The ascending `++` at or past the end cursor leaves with out-of-range and the iterator untouched. -/
theorem ascending_inc_beyond (it : AscendingIterator)
    (h : it.position ≥ it.end_.position) : it.inc = .throw it .outOfRange := by
  simp only [AscendingIterator.inc, h, if_true]

/-- The prime `++` at or past the end cursor leaves with out-of-range and the iterator untouched. -/
theorem prime_inc_beyond (it : PrimeIterator)
    (h : it.position ≥ it.end_.position) : it.inc = .throw it .outOfRange := by
  simp only [PrimeIterator.inc, h, if_true]

/-- Below the end cursor the prime `++` returns normally with the cursor one further. -/
theorem prime_inc_below (it : PrimeIterator)
    (h : it.position < it.end_.position) :
    it.inc = .ok ⟨it.container, it.position + 1⟩ := by
  have hend : it.end_.position < UINT_MOD := by
    simp only [PrimeIterator.end_, PrimeIterator.ofPosition]
    exact Nat.mod_lt _ (by decide)
  have hmod : (it.position + 1) % UINT_MOD = it.position + 1 := Nat.mod_eq_of_lt (by omega)
  simp only [PrimeIterator.inc, ge_iff_le, Nat.not_le.mpr h, if_false, hmod]

/-- The side-cross `++` at the end cursor leaves with out-of-range and the iterator untouched. -/
theorem sideCross_inc_at_end (it : SideCrossIterator)
    (h : it.position = it.end_.position) : it.inc = .throw it .outOfRange := by
  simp only [SideCrossIterator.inc, h, if_true]

/-- C7: for each of the three iterator kinds and every container state,
advancing an iterator whose cursor equals the cursor of its `end()` leaves
with the out-of-range error, and the iterator it leaves behind is the one it
was called on: same cursor, bound to the same, unchanged container. -/
theorem inc_at_end_fails :
    (∀ it : AscendingIterator, it.position = it.end_.position →
      it.inc.error = some Error.outOfRange ∧ it.inc.state = it ∧
      it.inc.state.position = it.position ∧ it.inc.state.container = it.container) ∧
    (∀ it : SideCrossIterator, it.position = it.end_.position →
      it.inc.error = some Error.outOfRange ∧ it.inc.state = it ∧
      it.inc.state.position = it.position ∧ it.inc.state.container = it.container) ∧
    (∀ it : PrimeIterator, it.position = it.end_.position →
      it.inc.error = some Error.outOfRange ∧ it.inc.state = it ∧
      it.inc.state.position = it.position ∧ it.inc.state.container = it.container) := by
  refine ⟨fun it h => ?_, fun it h => ?_, fun it h => ?_⟩
  · rw [ascending_inc_beyond it (by omega)]
    exact ⟨rfl, rfl, rfl, rfl⟩
  · rw [sideCross_inc_at_end it h]
    exact ⟨rfl, rfl, rfl, rfl⟩
  · rw [prime_inc_beyond it (by omega)]
    exact ⟨rfl, rfl, rfl, rfl⟩

/-- Witness for C7: on the container holding 2, 1, 8 the three iterators at
their end cursors (3, 3 and 1) all fail to advance and stay where they are. -/
theorem inc_at_end_fails_witness :
    (AscendingIterator.inc ⟨⟨[2, 1, 8], [1, 2, 8], [1]⟩, 3⟩).error = some Error.outOfRange ∧
    (AscendingIterator.inc ⟨⟨[2, 1, 8], [1, 2, 8], [1]⟩, 3⟩).state.position = 3 ∧
    (SideCrossIterator.inc ⟨⟨[2, 1, 8], [1, 2, 8], [1]⟩, 3⟩).error = some Error.outOfRange ∧
    (SideCrossIterator.inc ⟨⟨[2, 1, 8], [1, 2, 8], [1]⟩, 3⟩).state.position = 3 ∧
    (PrimeIterator.inc ⟨⟨[2, 1, 8], [1, 2, 8], [1]⟩, 1⟩).error = some Error.outOfRange ∧
    (PrimeIterator.inc ⟨⟨[2, 1, 8], [1, 2, 8], [1]⟩, 1⟩).state.position = 1 := by
  obtain ⟨ha, hs, hp⟩ := inc_at_end_fails
  obtain ⟨a1, _, a3, _⟩ := ha ⟨⟨[2, 1, 8], [1, 2, 8], [1]⟩, 3⟩ (by decide)
  obtain ⟨s1, _, s3, _⟩ := hs ⟨⟨[2, 1, 8], [1, 2, 8], [1]⟩, 3⟩ (by decide)
  obtain ⟨p1, _, p3, _⟩ := hp ⟨⟨[2, 1, 8], [1, 2, 8], [1]⟩, 1⟩ (by decide)
  exact ⟨a1, a3, s1, s3, p1, p3⟩

/-- Counterexample to C8: on an empty container the cursor 1 is not the
cursor of `end()` (which is 0), yet neither the ascending nor the prime
iterator advances to cursor 2: both leave with out-of-range, cursor still 1. -/
theorem inc_past_end_counterexample :
    ((1 : Nat) ≠ (AscendingIterator.end_ ⟨MagicalContainer.empty, 1⟩).position ∧
      ¬ ((AscendingIterator.inc ⟨MagicalContainer.empty, 1⟩).error = none ∧
          (AscendingIterator.inc ⟨MagicalContainer.empty, 1⟩).state.position = 2) ∧
      AscendingIterator.inc ⟨MagicalContainer.empty, 1⟩
        = .throw ⟨MagicalContainer.empty, 1⟩ .outOfRange) ∧
    ((1 : Nat) ≠ (PrimeIterator.end_ ⟨MagicalContainer.empty, 1⟩).position ∧
      ¬ ((PrimeIterator.inc ⟨MagicalContainer.empty, 1⟩).error = none ∧
          (PrimeIterator.inc ⟨MagicalContainer.empty, 1⟩).state.position = 2) ∧
      PrimeIterator.inc ⟨MagicalContainer.empty, 1⟩
        = .throw ⟨MagicalContainer.empty, 1⟩ .outOfRange) := by
  decide

/-- C8, as amended: for the ascending and the prime iterator, for every
container state and every cursor value, `++` leaves with out-of-range (cursor
unchanged) exactly when the cursor is at or past the cursor of `end()`, and
otherwise returns normally with the cursor increased by one; the cursor of
`end()` is the length of the iterator's projection whenever that length is
representable as `unsigned int`. -/
theorem inc_ascending_prime (c : MagicalContainer) (p : Nat) :
    (AscendingIterator.inc ⟨c, p⟩ =
      if p ≥ (AscendingIterator.end_ ⟨c, p⟩).position then .throw ⟨c, p⟩ .outOfRange
      else .ok ⟨c, p + 1⟩) ∧
    (PrimeIterator.inc ⟨c, p⟩ =
      if p ≥ (PrimeIterator.end_ ⟨c, p⟩).position then .throw ⟨c, p⟩ .outOfRange
      else .ok ⟨c, p + 1⟩) ∧
    ((AscendingIterator.inc ⟨c, p⟩).error = some Error.outOfRange ↔
      p ≥ (AscendingIterator.end_ ⟨c, p⟩).position) ∧
    ((PrimeIterator.inc ⟨c, p⟩).error = some Error.outOfRange ↔
      p ≥ (PrimeIterator.end_ ⟨c, p⟩).position) ∧
    (c.ascendedElements.length < UINT_MOD →
      (AscendingIterator.end_ ⟨c, p⟩).position = c.ascendedElements.length) ∧
    (c.primeElements.length < UINT_MOD →
      (PrimeIterator.end_ ⟨c, p⟩).position = c.primeElements.length) := by
  have hA : AscendingIterator.inc ⟨c, p⟩ =
      if p ≥ (AscendingIterator.end_ ⟨c, p⟩).position then .throw ⟨c, p⟩ .outOfRange
      else .ok ⟨c, p + 1⟩ := by
    split_ifs with h
    · exact ascending_inc_beyond ⟨c, p⟩ h
    · exact ascending_inc_below ⟨c, p⟩ (Nat.not_le.mp h)
  have hP : PrimeIterator.inc ⟨c, p⟩ =
      if p ≥ (PrimeIterator.end_ ⟨c, p⟩).position then .throw ⟨c, p⟩ .outOfRange
      else .ok ⟨c, p + 1⟩ := by
    split_ifs with h
    · exact prime_inc_beyond ⟨c, p⟩ h
    · exact prime_inc_below ⟨c, p⟩ (Nat.not_le.mp h)
  refine ⟨hA, hP, ?_, ?_, ?_, ?_⟩
  · rw [hA]
    split_ifs with h
    · simp [Outcome.throw, h]
    · simp [Outcome.ok, h]
  · rw [hP]
    split_ifs with h
    · simp [Outcome.throw, h]
    · simp [Outcome.ok, h]
  · intro hfit
    exact ascending_end_position c p hfit
  · intro hfit
    simp only [PrimeIterator.end_, PrimeIterator.ofPosition]
    exact Nat.mod_eq_of_lt hfit

/-- Witness for C8 as amended: on the container holding 2, 1, 8 the ascending
iterator advances from cursor 2 to 3 and fails at cursors 3 and 4. -/
theorem inc_ascending_prime_witness :
    AscendingIterator.inc ⟨⟨[2, 1, 8], [1, 2, 8], [1]⟩, 2⟩
      = .ok ⟨⟨[2, 1, 8], [1, 2, 8], [1]⟩, 3⟩ ∧
    (AscendingIterator.inc ⟨⟨[2, 1, 8], [1, 2, 8], [1]⟩, 3⟩).error = some Error.outOfRange ∧
    (AscendingIterator.inc ⟨⟨[2, 1, 8], [1, 2, 8], [1]⟩, 4⟩).error = some Error.outOfRange ∧
    (PrimeIterator.inc ⟨⟨[2, 1, 8], [1, 2, 8], [1]⟩, 2⟩).error = some Error.outOfRange := by
  refine ⟨?_, ?_, ?_, ?_⟩
  · rw [(inc_ascending_prime ⟨[2, 1, 8], [1, 2, 8], [1]⟩ 2).1]; decide
  · exact (inc_ascending_prime ⟨[2, 1, 8], [1, 2, 8], [1]⟩ 3).2.2.1.mpr (by decide)
  · exact (inc_ascending_prime ⟨[2, 1, 8], [1, 2, 8], [1]⟩ 4).2.2.1.mpr (by decide)
  · exact (inc_ascending_prime ⟨[2, 1, 8], [1, 2, 8], [1]⟩ 2).2.2.2.1.mpr (by decide)

/-- C9: for each of the three iterator kinds, assigning `src` to `dst` returns
normally if and only if the `elements` sequence of `dst`'s container equals
that of `src`'s container; then `dst` has the cursor of `src` and is still
bound to its own container; otherwise the incompatible-container error is
raised and `dst` is unchanged. -/
theorem assign_spec (a a' : AscendingIterator) (s s' : SideCrossIterator)
    (p p' : PrimeIterator) :
    (((a.assign a').error = none ↔ a.container.elements = a'.container.elements) ∧
      ((a.assign a').error = none →
        (a.assign a').state.position = a'.position ∧
        (a.assign a').state.container = a.container) ∧
      ((a.assign a').error ≠ none →
        (a.assign a').error = some Error.incompatibleContainer ∧ (a.assign a').state = a)) ∧
    (((s.assign s').error = none ↔ s.container.elements = s'.container.elements) ∧
      ((s.assign s').error = none →
        (s.assign s').state.position = s'.position ∧
        (s.assign s').state.container = s.container) ∧
      ((s.assign s').error ≠ none →
        (s.assign s').error = some Error.incompatibleContainer ∧ (s.assign s').state = s)) ∧
    (((p.assign p').error = none ↔ p.container.elements = p'.container.elements) ∧
      ((p.assign p').error = none →
        (p.assign p').state.position = p'.position ∧
        (p.assign p').state.container = p.container) ∧
      ((p.assign p').error ≠ none →
        (p.assign p').error = some Error.incompatibleContainer ∧ (p.assign p').state = p)) := by
  refine ⟨?_, ?_, ?_⟩
  · by_cases h : a.container.elements = a'.container.elements
    · simp [AscendingIterator.assign, h, Outcome.ok]
    · simp [AscendingIterator.assign, h, Outcome.throw]
  · by_cases h : s.container.elements = s'.container.elements
    · simp [SideCrossIterator.assign, h, Outcome.ok]
    · simp [SideCrossIterator.assign, h, Outcome.throw]
  · by_cases h : p.container.elements = p'.container.elements
    · simp [PrimeIterator.assign, h, Outcome.ok]
    · simp [PrimeIterator.assign, h, Outcome.throw]

/-- Witness for C9: containers filled with 1, 2 and with 2, 1 have the same
sorted vector but different `elements`, so assignment between their iterators
fails; between two containers both filled with 1, 2 it copies the cursor. -/
theorem assign_spec_witness :
    (AscendingIterator.assign ⟨⟨[1, 2], [1, 2], [1]⟩, 0⟩ ⟨⟨[2, 1], [1, 2], [1]⟩, 1⟩).error
      = some Error.incompatibleContainer ∧
    (AscendingIterator.assign ⟨⟨[1, 2], [1, 2], [1]⟩, 0⟩ ⟨⟨[2, 1], [1, 2], [1]⟩, 1⟩).state
      = ⟨⟨[1, 2], [1, 2], [1]⟩, 0⟩ ∧
    (SideCrossIterator.assign ⟨⟨[1, 2], [1, 2], [1]⟩, 0⟩ ⟨⟨[1, 2], [1, 2], [1]⟩, 1⟩).error
      = none ∧
    (SideCrossIterator.assign ⟨⟨[1, 2], [1, 2], [1]⟩, 0⟩ ⟨⟨[1, 2], [1, 2], [1]⟩, 1⟩).state.position
      = 1 := by
  have h := assign_spec ⟨⟨[1, 2], [1, 2], [1]⟩, 0⟩ ⟨⟨[2, 1], [1, 2], [1]⟩, 1⟩
    ⟨⟨[1, 2], [1, 2], [1]⟩, 0⟩ ⟨⟨[1, 2], [1, 2], [1]⟩, 1⟩
    ⟨⟨[1, 2], [1, 2], [1]⟩, 0⟩ ⟨⟨[1, 2], [1, 2], [1]⟩, 1⟩
  obtain ⟨⟨_, _, ha⟩, ⟨hs1, hs2, _⟩, _⟩ := h
  have hs : (SideCrossIterator.assign ⟨⟨[1, 2], [1, 2], [1]⟩, 0⟩
      ⟨⟨[1, 2], [1, 2], [1]⟩, 1⟩).error = none := hs1.mpr rfl
  obtain ⟨ha1, ha2⟩ := ha (by decide)
  exact ⟨ha1, ha2, hs, (hs2 hs).1⟩


/-! ### First-occurrence removal and the length of the prime list -/

/-- C11: in every container state reached from empty and for every value `v`
that occurs in `elements`, `removeElement(v)` returns normally; the new
`elements` is the old one with exactly its first occurrence of `v` erased
(`old = front ++ v :: back` with `v` not in `front`, `new = front ++ back`, so
all other entries keep their relative order), the new `ascendedElements` is
the old one with exactly its first occurrence of `v` erased, the multiplicity
of `v` drops by one and no other value's multiplicity changes. -/
theorem removeElement_first_occurrence (calls : List Call) :
    ∃ c, run calls = some c ∧ ∀ v, v ∈ c.elements →
      (removeElement c v).error = none ∧
      (removeElement c v).state.elements = c.elements.erase v ∧
      (removeElement c v).state.ascendedElements = c.ascendedElements.erase v ∧
      (∃ front back, v ∉ front ∧ c.elements = front ++ v :: back ∧
        (removeElement c v).state.elements = front ++ back) ∧
      (∃ front back, v ∉ front ∧ c.ascendedElements = front ++ v :: back ∧
        (removeElement c v).state.ascendedElements = front ++ back) ∧
      (removeElement c v).state.elements.count v + 1 = c.elements.count v ∧
      (removeElement c v).state.ascendedElements.count v + 1 = c.ascendedElements.count v ∧
      (∀ w, w ≠ v →
        (removeElement c v).state.elements.count w = c.elements.count w ∧
        (removeElement c v).state.ascendedElements.count w = c.ascendedElements.count w) := by
  obtain ⟨c, h1, hc⟩ := run_consistent calls
  refine ⟨c, h1, fun v hv => ?_⟩
  have hv' : v ∈ c.ascendedElements := hc.perm.mem_iff.mpr hv
  obtain ⟨ps, h2, _⟩ := removeElement_spec c hc v hv
  have herr : (removeElement c v).error = none := by rw [h2]; rfl
  have hel : (removeElement c v).state.elements = c.elements.erase v := by rw [h2]; rfl
  have has : (removeElement c v).state.ascendedElements = c.ascendedElements.erase v := by
    rw [h2]; rfl
  rw [hel, has]
  obtain ⟨f1, b1, hf1, he1, hr1⟩ := List.exists_erase_eq hv
  obtain ⟨f2, b2, hf2, he2, hr2⟩ := List.exists_erase_eq hv'
  refine ⟨herr, rfl, rfl, ⟨f1, b1, hf1, he1, hr1⟩, ⟨f2, b2, hf2, he2, hr2⟩, ?_, ?_, ?_⟩
  · rw [List.count_erase_self]
    have := List.count_pos_iff.mpr hv
    omega
  · rw [List.count_erase_self]
    have := List.count_pos_iff.mpr hv'
    omega
  · intro w hw
    exact ⟨List.count_erase_of_ne hw _, List.count_erase_of_ne hw _⟩

/-- Witness for C11: with 3, 5, 3 inserted, `removeElement(3)` leaves
`elements = [5, 3]` (the first 3 is gone) and `ascendedElements = [3, 5]`. -/
theorem removeElement_first_occurrence_witness :
    ∃ c, run [.add 3, .add 5, .add 3] = some c ∧
      (3 : Int) ∈ c.elements ∧
      (removeElement c 3).error = none ∧
      (removeElement c 3).state.elements = [5, 3] ∧
      (removeElement c 3).state.ascendedElements = [3, 5] := by
  obtain ⟨c, h1, h2⟩ := removeElement_first_occurrence [.add 3, .add 5, .add 3]
  have hc : c = ⟨[3, 5, 3], [3, 3, 5], [0, 1, 2]⟩ := by
    have hrun : run [.add 3, .add 5, .add 3] = some ⟨[3, 5, 3], [3, 3, 5], [0, 1, 2]⟩ := by
      decide
    rw [hrun] at h1
    exact (Option.some.inj h1).symm
  subst hc
  have hmem : (3 : Int) ∈ ([3, 5, 3] : List Int) := by decide
  obtain ⟨e1, e2, e3, _⟩ := h2 3 hmem
  exact ⟨_, h1, hmem, e1, e2.trans (by decide), e3.trans (by decide)⟩

/-- C12: in every container state reached from empty by `addElement` and
`removeElement` calls, the length of `primeElements` equals the number of
entries of `elements` that are prime, counted with multiplicity; it is the
cursor of `PrimeIterator::end()` whenever the number of elements is
representable as `unsigned int`. -/
theorem prime_length_invariant (calls : List Call) :
    ∃ c, run calls = some c ∧
      c.primeElements.length = c.elements.countP isPrime ∧
      c.primeElements.length = (c.elements.filter isPrime).length ∧
      (c.elements.length < UINT_MOD →
        (PrimeIterator.end_ (PrimeIterator.ofContainer c)).position
          = c.elements.countP isPrime) := by
  obtain ⟨c, h1, hc⟩ := run_consistent calls
  have hcount : c.primeElements.length = c.elements.countP isPrime := by
    rw [hc.primeCount, hc.perm.countP_eq]
  refine ⟨c, h1, hcount, by rw [hcount, List.countP_eq_length_filter], fun hfit => ?_⟩
  have hle : c.elements.countP isPrime ≤ c.elements.length := List.countP_le_length _
  simp only [PrimeIterator.end_, PrimeIterator.ofPosition, PrimeIterator.ofContainer]
  rw [hcount]
  exact Nat.mod_eq_of_lt (by omega)

/-- Witness for C12: after inserting 2, 1, 8, 7, 7 and removing 2 the prime
list has the two entries for 7, 7 and `end()` is at cursor 2. -/
theorem prime_length_invariant_witness :
    ∃ c, run [.add 2, .add 1, .add 8, .add 7, .add 7, .remove 2] = some c ∧
      c.primeElements.length = 2 ∧
      (PrimeIterator.end_ (PrimeIterator.ofContainer c)).position = 2 := by
  obtain ⟨c, h1, h2, _, h4⟩ :=
    prime_length_invariant [.add 2, .add 1, .add 8, .add 7, .add 7, .remove 2]
  have hc : c = ⟨[1, 8, 7, 7], [1, 7, 7, 8], [1, 2]⟩ := by
    have hrun : run [.add 2, .add 1, .add 8, .add 7, .add 7, .remove 2]
        = some ⟨[1, 8, 7, 7], [1, 7, 7, 8], [1, 2]⟩ := by decide
    rw [hrun] at h1
    exact (Option.some.inj h1).symm
  subst hc
  exact ⟨_, h1, h2.trans (by decide), (h4 (by decide)).trans (by decide)⟩


/-! ### The header example, the empty container and the comparisons -/

/-- Counterexample to C13: for the container into which 2, 1, 8, 6, -3, 4 were
added in that order, the side-cross loop from `begin()` to `end()`, taken from
any iterator bound to the container and run with any fuel, never yields
2, 4, 1, -3, 8, 6. -/
theorem sideCross_header_counterexample :
    ∃ c, insertAll [2, 1, 8, 6, -3, 4] = some c ∧
      c.elements = [2, 1, 8, 6, -3, 4] ∧
      ∀ cur fuel, SideCrossIterator.collect fuel (SideCrossIterator.mk c cur).begin
        ≠ .ok [2, 4, 1, -3, 8, 6] := by
  refine ⟨⟨[2, 1, 8, 6, -3, 4], [-3, 1, 2, 4, 6, 8], [2]⟩, by decide, rfl, ?_⟩
  intro cur fuel
  have hbegin : (SideCrossIterator.mk
      ⟨[2, 1, 8, 6, -3, 4], [-3, 1, 2, 4, 6, 8], [2]⟩ cur).begin
      = ⟨⟨[2, 1, 8, 6, -3, 4], [-3, 1, 2, 4, 6, 8], [2]⟩,
          sideCrossCursor ([-3, 1, 2, 4, 6, 8] : List Int).length 0⟩ := by rfl
  rw [hbegin]
  by_cases hfuel : 6 < fuel
  · have h := sideCross_collect_from ⟨[2, 1, 8, 6, -3, 4], [-3, 1, 2, 4, 6, 8], [2]⟩
      (by decide) fuel 0 (Nat.zero_le _) hfuel
    rw [h]
    intro hbad
    have := congrArg Except.toOption hbad
    revert this
    decide
  · have hle : fuel ≤ 6 := by omega
    interval_cases fuel <;>
      exact fun hbad => absurd (congrArg Except.toOption hbad) (by decide)

/-- C13, as amended: for the container into which 2, 1, 8, 6, -3, 4 were added
in that order, `ascendedElements` is -3, 1, 2, 4, 6, 8, and traversing the
`SideCrossIterator` from `begin()` (cursor 0, whatever iterator it is taken
from) to `end()` yields -3, 8, 1, 6, 2, 4: the first element from the start,
the first from the end, the second from the start, the second from the end,
and so on, taken over the data sorted ascending. -/
theorem sideCross_header_example :
    ∃ c, insertAll [2, 1, 8, 6, -3, 4] = some c ∧
      c.elements = [2, 1, 8, 6, -3, 4] ∧
      c.ascendedElements = [-3, 1, 2, 4, 6, 8] ∧
      ∀ cur : Nat, (SideCrossIterator.mk c cur).begin = ⟨c, 0⟩ ∧
        ∀ fuel, 6 < fuel →
          SideCrossIterator.collect fuel (SideCrossIterator.mk c cur).begin
            = .ok [-3, 8, 1, 6, 2, 4] := by
  refine ⟨⟨[2, 1, 8, 6, -3, 4], [-3, 1, 2, 4, 6, 8], [2]⟩, by decide, rfl, rfl, ?_⟩
  intro cur
  refine ⟨rfl, fun fuel hfuel => ?_⟩
  have hbegin : (SideCrossIterator.mk
      ⟨[2, 1, 8, 6, -3, 4], [-3, 1, 2, 4, 6, 8], [2]⟩ cur).begin
      = ⟨⟨[2, 1, 8, 6, -3, 4], [-3, 1, 2, 4, 6, 8], [2]⟩,
          sideCrossCursor ([-3, 1, 2, 4, 6, 8] : List Int).length 0⟩ := by rfl
  have h := sideCross_collect_from ⟨[2, 1, 8, 6, -3, 4], [-3, 1, 2, 4, 6, 8], [2]⟩
    (by decide) fuel 0 (Nat.zero_le _) hfuel
  rw [hbegin, h]
  rfl

/-- Leaving the loop at once: when `begin() == end()` the loop from `begin()`
performs no dereference and no advance. -/
theorem sideCross_collect_of_eq (c : MagicalContainer) (cur fuel : Nat)
    (h : SideCrossIterator.eq (SideCrossIterator.mk c cur).begin
      (SideCrossIterator.mk c cur).end_ = true) :
    SideCrossIterator.collect (fuel + 1) (SideCrossIterator.mk c cur).begin = .ok [] := by
  have hne : SideCrossIterator.ne (SideCrossIterator.mk c cur).begin
      (SideCrossIterator.mk c cur).begin.end_ = false := by
    simp only [SideCrossIterator.eq, beq_iff_eq] at h
    simp only [SideCrossIterator.ne, bne_eq_false_iff_eq]
    exact h
  rw [SideCrossIterator.collect, if_neg (by rw [hne]; simp)]

/-- C14: in every container state reached from empty and for every
`SideCrossIterator` bound to it, wherever its own cursor `cur` stands:
`begin()` is the iterator at cursor 0 of that container, and it compares equal
to `end()` if and only if `size() == 0`, which (for a number of elements
representable as `unsigned int`) is if and only if `elements` is empty; on the
empty container `begin() == end()` holds, and whenever it holds the loop
guarded by `it != end()` yields nothing without a dereference. -/
theorem sideCross_degenerate (calls : List Call) :
    ∃ c, run calls = some c ∧ ∀ cur : Nat,
      (SideCrossIterator.mk c cur).begin = ⟨c, 0⟩ ∧
      (SideCrossIterator.eq (SideCrossIterator.mk c cur).begin
          (SideCrossIterator.mk c cur).end_ = true ↔ c.size = 0) ∧
      (c.elements.length < UINT_MOD →
        (SideCrossIterator.eq (SideCrossIterator.mk c cur).begin
          (SideCrossIterator.mk c cur).end_ = true ↔ c.elements = [])) ∧
      (∀ fuel, SideCrossIterator.eq (SideCrossIterator.mk c cur).begin
          (SideCrossIterator.mk c cur).end_ = true →
        SideCrossIterator.collect (fuel + 1) (SideCrossIterator.mk c cur).begin
          = .ok []) ∧
      SideCrossIterator.eq (SideCrossIterator.mk MagicalContainer.empty cur).begin
        (SideCrossIterator.mk MagicalContainer.empty cur).end_ = true := by
  obtain ⟨c, h1, hc⟩ := run_consistent calls
  have hlen : c.ascendedElements.length = c.elements.length := hc.perm.length_eq
  refine ⟨c, h1, fun cur => ?_⟩
  have hiff : SideCrossIterator.eq (SideCrossIterator.mk c cur).begin
      (SideCrossIterator.mk c cur).end_ = true ↔ c.size = 0 := by
    simp only [SideCrossIterator.eq, SideCrossIterator.begin, SideCrossIterator.end_,
      SideCrossIterator.ofContainer, SideCrossIterator.ofPosition, MagicalContainer.size,
      beq_iff_eq, hlen]
    exact eq_comm
  refine ⟨rfl, hiff, fun hfit => ?_, fun fuel h => sideCross_collect_of_eq c cur fuel h, rfl⟩
  rw [hiff, MagicalContainer.size, Nat.mod_eq_of_lt hfit, List.length_eq_zero]

/-- Witness for C14: on the container holding 5 an iterator standing at cursor
1, the cursor of `end()`, has `begin() != end()`; after removing the 5 again
`begin() == end()`. -/
theorem sideCross_degenerate_witness :
    (∃ c, run [.add 5] = some c ∧ c.size = 1 ∧
      (SideCrossIterator.mk c 1).position = (SideCrossIterator.mk c 1).end_.position ∧
      SideCrossIterator.eq (SideCrossIterator.mk c 1).begin
        (SideCrossIterator.mk c 1).end_ = false) ∧
    (∃ c, run [.add 5, .remove 5] = some c ∧ c.size = 0 ∧
      SideCrossIterator.eq (SideCrossIterator.mk c 1).begin
        (SideCrossIterator.mk c 1).end_ = true) := by
  constructor
  · obtain ⟨c, h1, h2⟩ := sideCross_degenerate [.add 5]
    have hc : c = ⟨[5], [5], [0]⟩ := by
      have hrun : run [.add 5] = some ⟨[5], [5], [0]⟩ := by decide
      rw [hrun] at h1
      exact (Option.some.inj h1).symm
    subst hc
    have hs : MagicalContainer.size ⟨[5], [5], [0]⟩ = 1 := by decide
    refine ⟨_, h1, hs, by decide, ?_⟩
    have hno : ¬ SideCrossIterator.eq (SideCrossIterator.mk ⟨[5], [5], [0]⟩ 1).begin
        (SideCrossIterator.mk ⟨[5], [5], [0]⟩ 1).end_ = true := by
      intro h
      have := (h2 1).2.1.mp h
      rw [hs] at this
      exact absurd this (by decide)
    simpa using hno
  · obtain ⟨c, h1, h2⟩ := sideCross_degenerate [.add 5, .remove 5]
    have hc : c = ⟨[], [], []⟩ := by
      have hrun : run [.add 5, .remove 5] = some ⟨[], [], []⟩ := by decide
      rw [hrun] at h1
      exact (Option.some.inj h1).symm
    subst hc
    have hs : MagicalContainer.size ⟨[], [], []⟩ = 0 := by decide
    exact ⟨_, h1, hs, (h2 1).2.1.mpr hs⟩

/-- C15: for each iterator kind and any two iterators of that kind, whatever
containers they are bound to, `==` holds iff the cursors are equal, `!=` is the
negation of `==`, `<` holds iff the left cursor is smaller, `a > b` is
`b < a`, and exactly one of `a < b`, `a == b`, `a > b` holds. -/
theorem compare_by_cursor (a b : AscendingIterator) (s t : SideCrossIterator)
    (p q : PrimeIterator) :
    ((a.eq b = true ↔ a.position = b.position) ∧ a.ne b = !(a.eq b) ∧
      (a.lt b = true ↔ a.position < b.position) ∧ a.gt b = b.lt a ∧
      ((a.lt b = true ∧ a.eq b = false ∧ a.gt b = false) ∨
        (a.lt b = false ∧ a.eq b = true ∧ a.gt b = false) ∨
        (a.lt b = false ∧ a.eq b = false ∧ a.gt b = true))) ∧
    ((s.eq t = true ↔ s.position = t.position) ∧ s.ne t = !(s.eq t) ∧
      (s.lt t = true ↔ s.position < t.position) ∧ s.gt t = t.lt s ∧
      ((s.lt t = true ∧ s.eq t = false ∧ s.gt t = false) ∨
        (s.lt t = false ∧ s.eq t = true ∧ s.gt t = false) ∨
        (s.lt t = false ∧ s.eq t = false ∧ s.gt t = true))) ∧
    ((p.eq q = true ↔ p.position = q.position) ∧ p.ne q = !(p.eq q) ∧
      (p.lt q = true ↔ p.position < q.position) ∧ p.gt q = q.lt p ∧
      ((p.lt q = true ∧ p.eq q = false ∧ p.gt q = false) ∨
        (p.lt q = false ∧ p.eq q = true ∧ p.gt q = false) ∨
        (p.lt q = false ∧ p.eq q = false ∧ p.gt q = true))) := by
  refine ⟨⟨?_, ?_, ?_, ?_, ?_⟩, ⟨?_, ?_, ?_, ?_, ?_⟩, ⟨?_, ?_, ?_, ?_, ?_⟩⟩
  · simp [AscendingIterator.eq]
  · simp [AscendingIterator.ne, AscendingIterator.eq, bne]
  · simp [AscendingIterator.lt]
  · simp [AscendingIterator.gt, AscendingIterator.lt]
  · simp only [AscendingIterator.lt, AscendingIterator.eq, AscendingIterator.gt,
      decide_eq_true_eq, decide_eq_false_iff_not, beq_iff_eq, beq_eq_false_iff_ne, ne_eq]
    omega
  · simp [SideCrossIterator.eq]
  · simp [SideCrossIterator.ne, SideCrossIterator.eq, bne]
  · simp [SideCrossIterator.lt]
  · simp [SideCrossIterator.gt, SideCrossIterator.lt]
  · simp only [SideCrossIterator.lt, SideCrossIterator.eq, SideCrossIterator.gt,
      decide_eq_true_eq, decide_eq_false_iff_not, beq_iff_eq, beq_eq_false_iff_ne, ne_eq]
    omega
  · simp [PrimeIterator.eq]
  · simp [PrimeIterator.ne, PrimeIterator.eq, bne]
  · simp [PrimeIterator.lt]
  · simp [PrimeIterator.gt, PrimeIterator.lt]
  · simp only [PrimeIterator.lt, PrimeIterator.eq, PrimeIterator.gt,
      decide_eq_true_eq, decide_eq_false_iff_not, beq_iff_eq, beq_eq_false_iff_ne, ne_eq]
    omega


/-! ### Accesses to the prime list -/

/-- The loop of `maintainAddresses` runs without an out-of-bounds write exactly
when every index it writes lies below the length of `primeElements`. -/
theorem maintainLoop_isSome_iff (vs : List Int) :
    ∀ (pt at_ : Nat) (ps : List Nat),
      (maintainLoop vs pt at_ ps).isSome = true ↔ ∀ k ∈ maintainWrites vs pt, k < ps.length := by
  induction vs with
  | nil => intro pt at_ ps; simp [maintainLoop, maintainWrites]
  | cons v rest ih =>
    intro pt at_ ps
    by_cases hv : isPrime v = true
    · by_cases hlt : pt < ps.length
      · have hrec := ih ((pt + 1) % UINT_MOD) ((at_ + 1) % UINT_MOD) (ps.set pt at_)
        rw [List.length_set] at hrec
        simp only [maintainLoop, maintainWrites, hv, hlt, if_true, hrec, List.mem_cons,
          forall_eq_or_imp, true_and]
      · simp only [maintainLoop, maintainWrites, hv, hlt, if_true, if_false, List.mem_cons,
          forall_eq_or_imp, false_and, Option.isSome_none, Bool.false_eq_true]
    · have hrec := ih pt ((at_ + 1) % UINT_MOD) ps
      simp only [maintainLoop, maintainWrites, hv]
      exact hrec

/-- On a consistent container `addElement` calls `maintainAddresses` with as
many prime-list entries as the sorted vector has primes. -/
theorem addElementPrepared_count (c : MagicalContainer) (hc : Consistent c) (v : Int) :
    (addElementPrepared c v).primeElements.length
      = (addElementPrepared c v).ascendedElements.countP isPrime := by
  have hperm := List.perm_insertionSort (· ≤ ·) (c.ascendedElements ++ [v])
  have hcount : ((c.ascendedElements ++ [v]).insertionSort (· ≤ ·)).countP isPrime
      = c.ascendedElements.countP isPrime + (if isPrime v then 1 else 0) := by
    rw [hperm.countP_eq, List.countP_append]
    by_cases hv : isPrime v = true <;> simp [hv]
  by_cases hv : isPrime v = true
  · simp only [addElementPrepared, hv, if_true, List.length_append, List.length_singleton]
    rw [hcount, hc.primeCount]
    simp [hv]
  · have hv' : isPrime v = false := by simpa using hv
    simp only [addElementPrepared, hv', Bool.false_eq_true, if_false]
    rw [hcount, hc.primeCount]
    simp [hv']

/-- On a consistent container holding the element, `removeElement` calls
`maintainAddresses` with as many prime-list entries as the sorted vector has primes. -/
theorem removeElementPrepared_count (c : MagicalContainer) (hc : Consistent c) (v : Int)
    (hmem : v ∈ c.elements) :
    (removeElementPrepared c v).primeElements.length
      = (removeElementPrepared c v).ascendedElements.countP isPrime := by
  have hmem' : v ∈ c.ascendedElements := hc.perm.mem_iff.mpr hmem
  have hcount := (List.perm_cons_erase hmem').countP_eq isPrime
  by_cases hv : isPrime v = true
  · rw [List.countP_cons_of_pos _ _ hv] at hcount
    simp only [removeElementPrepared, hv, if_true, List.length_dropLast, hc.primeCount]
    omega
  · rw [List.countP_cons_of_neg _ _ hv] at hcount
    have hv' : isPrime v = false := by simpa using hv
    simp only [removeElementPrepared, hv', Bool.false_eq_true, if_false]
    rw [hc.primeCount]
    exact hcount

/-- A prime list with as many entries as the sorted vector has primes is
written only inside its bounds. -/
theorem maintainWrites_lt (c : MagicalContainer)
    (h : c.primeElements.length = c.ascendedElements.countP isPrime) :
    ∀ k ∈ maintainWrites c.ascendedElements 0, k < c.primeElements.length := by
  obtain ⟨ps, h1, _⟩ := maintainLoop_total c.ascendedElements 0 0 c.primeElements (by omega)
  exact (maintainLoop_isSome_iff c.ascendedElements 0 0 c.primeElements).mp (by rw [h1]; rfl)

/-- C16: in every container state reached from empty and for every value `v`:
(a) `addElement(v)`, and `removeElement(v)` for a `v` that is present, call
`maintainAddresses` on a container whose prime list has exactly as many entries
as `ascendedElements` has primes, so every write `primeElements[k]` it performs
has `k` below the length of `primeElements`, and both methods return normally;
(b) when `removeElement(v)` pops the last entry (`v` present and prime),
`primeElements` is not empty. -/
theorem prime_list_in_bounds (calls : List Call) :
    ∃ c, run calls = some c ∧ ∀ v,
      (addElement c v = maintainAddresses (addElementPrepared c v) ∧
        (addElementPrepared c v).primeElements.length
          = (addElementPrepared c v).ascendedElements.countP isPrime ∧
        (∀ k ∈ maintainWrites (addElementPrepared c v).ascendedElements 0,
          k < (addElementPrepared c v).primeElements.length) ∧
        (addElement c v).error = none) ∧
      (v ∈ c.elements →
        (isPrime v = true → c.primeElements ≠ []) ∧
        removeElement c v = maintainAddresses (removeElementPrepared c v) ∧
        (removeElementPrepared c v).primeElements.length
          = (removeElementPrepared c v).ascendedElements.countP isPrime ∧
        (∀ k ∈ maintainWrites (removeElementPrepared c v).ascendedElements 0,
          k < (removeElementPrepared c v).primeElements.length) ∧
        (removeElement c v).error = none) := by
  obtain ⟨c, h1, hc⟩ := run_consistent calls
  refine ⟨c, h1, fun v => ⟨?_, fun hmem => ?_⟩⟩
  · have hcnt := addElementPrepared_count c hc v
    obtain ⟨ps, h2, _⟩ := addElement_spec c hc v
    refine ⟨?_, hcnt, maintainWrites_lt _ hcnt, by rw [h2]; rfl⟩
    by_cases hv : isPrime v = true
    · simp only [addElement, addElementPrepared, hv, if_true]
    · have hv' : isPrime v = false := by simpa using hv
      simp only [addElement, addElementPrepared, hv', Bool.false_eq_true, if_false]
  · have hcnt := removeElementPrepared_count c hc v hmem
    obtain ⟨ps, h2, _⟩ := removeElement_spec c hc v hmem
    have hmem' : v ∈ c.ascendedElements := hc.perm.mem_iff.mpr hmem
    have hne : isPrime v = true → c.primeElements ≠ [] := by
      intro hv h0
      have hpos : 0 < c.ascendedElements.countP isPrime :=
        List.countP_pos_iff.mpr ⟨v, hmem', hv⟩
      have := hc.primeCount
      rw [h0] at this
      simp only [List.length_nil] at this
      omega
    refine ⟨hne, ?_, hcnt, maintainWrites_lt _ hcnt, by rw [h2]; rfl⟩
    by_cases hv : isPrime v = true
    · simp only [removeElement, removeElementPrepared, hmem, not_true_eq_false, if_false, hv,
        if_true, hne hv]
    · have hv' : isPrime v = false := by simpa using hv
      simp only [removeElement, removeElementPrepared, hmem, not_true_eq_false, if_false, hv',
        Bool.false_eq_true]

/-- Witness for C16: with 2, 9, 7 inserted, removing the prime 7 pops from a
non-empty prime list and rewrites only entry 0 of the one-entry list left. -/
theorem prime_list_in_bounds_witness :
    ∃ c, run [.add 2, .add 9, .add 7] = some c ∧
      (7 : Int) ∈ c.elements ∧ c.primeElements ≠ [] ∧
      maintainWrites (removeElementPrepared c 7).ascendedElements 0 = [0] ∧
      (removeElementPrepared c 7).primeElements.length = 1 ∧
      (removeElement c 7).error = none := by
  obtain ⟨c, h1, h2⟩ := prime_list_in_bounds [.add 2, .add 9, .add 7]
  have hc : c = ⟨[2, 9, 7], [2, 7, 9], [0, 1]⟩ := by
    have hrun : run [.add 2, .add 9, .add 7] = some ⟨[2, 9, 7], [2, 7, 9], [0, 1]⟩ := by
      decide
    rw [hrun] at h1
    exact (Option.some.inj h1).symm
  subst hc
  have hmem : (7 : Int) ∈ ([2, 9, 7] : List Int) := by decide
  obtain ⟨hne, _, _, _, herr⟩ := (h2 7).2 hmem
  exact ⟨_, h1, hmem, hne (by decide), by decide, by decide, herr⟩


/-! ### Side-cross advance from an arbitrary cursor -/

/-- The side-cross cursor never exceeds the end cursor. -/
theorem sideCrossCursor_le (n k : Nat) : sideCrossCursor n k ≤ n := by
  unfold sideCrossCursor
  split_ifs with h
  · exact Nat.le_of_lt (sideCrossPosition_lt n k h)
  · exact le_refl _

/-- C17: for every container whose sorted vector has a length `n`
representable as `unsigned int` and every cursor `p < n`, advancing a
`SideCrossIterator` at `p` returns normally with a cursor `≤ n`; and for some
`m` with `1 ≤ m ≤ n`, `m` advances from `p` all return normally and end at the
cursor of `end()`, the cursors before that are inside the vector, and no two
of the cursors passed on the way are equal. -/
theorem sideCross_terminates (c : MagicalContainer)
    (hfit : c.ascendedElements.length < UINT_MOD) (p : Nat)
    (hp : p < c.ascendedElements.length) :
    (SideCrossIterator.inc ⟨c, p⟩).error = none ∧
    (SideCrossIterator.inc ⟨c, p⟩).state.position ≤ c.ascendedElements.length ∧
    ∃ m, 1 ≤ m ∧ m ≤ c.ascendedElements.length ∧
      SideCrossIterator.advance m ⟨c, p⟩ = .ok (SideCrossIterator.end_ ⟨c, p⟩) ∧
      (∀ i, i < m → (SideCrossIterator.advance i ⟨c, p⟩).error = none ∧
        (SideCrossIterator.advance i ⟨c, p⟩).state.position < c.ascendedElements.length) ∧
      (∀ i j, i < j → j ≤ m →
        (SideCrossIterator.advance i ⟨c, p⟩).state.position
          ≠ (SideCrossIterator.advance j ⟨c, p⟩).state.position) := by
  obtain ⟨k, hk, hpos⟩ := sideCrossPosition_surj c.ascendedElements.length p hp
  have hcur : sideCrossCursor c.ascendedElements.length k = p := by
    simp only [sideCrossCursor, hk, if_true, hpos]
  have hadv : ∀ i, k + i ≤ c.ascendedElements.length →
      SideCrossIterator.advance i ⟨c, p⟩
        = .ok ⟨c, sideCrossCursor c.ascendedElements.length (k + i)⟩ := by
    intro i hi
    have := sideCross_advance_cursor c hfit i k hi
    rwa [hcur] at this
  have hinc : SideCrossIterator.inc ⟨c, p⟩
      = .ok ⟨c, sideCrossCursor c.ascendedElements.length (k + 1)⟩ := by
    have := sideCross_inc_cursor c hfit k hk
    rwa [hcur] at this
  have hin : ∀ i, k + i < c.ascendedElements.length →
      sideCrossCursor c.ascendedElements.length (k + i)
        = sideCrossPosition c.ascendedElements.length (k + i) := by
    intro i hi
    simp only [sideCrossCursor, hi, if_true]
  refine ⟨by rw [hinc]; rfl, by rw [hinc]; exact sideCrossCursor_le _ _,
    c.ascendedElements.length - k, by omega, by omega, ?_, ?_, ?_⟩
  · rw [hadv _ (by omega)]
    have hkn : k + (c.ascendedElements.length - k) = c.ascendedElements.length := by omega
    simp only [hkn, sideCrossCursor, lt_self_iff_false, if_false, SideCrossIterator.end_,
      SideCrossIterator.ofPosition, Nat.mod_eq_of_lt hfit]
  · intro i hi
    rw [hadv i (by omega)]
    refine ⟨rfl, ?_⟩
    show sideCrossCursor c.ascendedElements.length (k + i) < _
    rw [hin i (by omega)]
    exact sideCrossPosition_lt _ _ (by omega)
  · intro i j hij hj
    rw [hadv i (by omega), hadv j (by omega)]
    show sideCrossCursor c.ascendedElements.length (k + i)
      ≠ sideCrossCursor c.ascendedElements.length (k + j)
    rw [hin i (by omega)]
    have hlt := sideCrossPosition_lt c.ascendedElements.length (k + i) (by omega)
    by_cases hjn : k + j < c.ascendedElements.length
    · rw [hin j hjn]
      intro heq
      have := sideCrossPosition_inj _ _ _ (by omega) hjn heq
      omega
    · have hjeq : k + j = c.ascendedElements.length := by omega
      simp only [hjeq, sideCrossCursor, lt_self_iff_false, if_false]
      omega

/-- Witness for C17: on the sorted vector -3, 1, 2, 4, 6, 8 an iterator at
cursor 4 advances to 2 and reaches `end()` after three advances. -/
theorem sideCross_terminates_witness :
    (SideCrossIterator.inc ⟨⟨[2, 1, 8, 6, -3, 4], [-3, 1, 2, 4, 6, 8], [2]⟩, 4⟩).error = none ∧
    (SideCrossIterator.inc ⟨⟨[2, 1, 8, 6, -3, 4], [-3, 1, 2, 4, 6, 8], [2]⟩, 4⟩).state.position
      = 2 ∧
    SideCrossIterator.advance 3 ⟨⟨[2, 1, 8, 6, -3, 4], [-3, 1, 2, 4, 6, 8], [2]⟩, 4⟩
      = .ok ⟨⟨[2, 1, 8, 6, -3, 4], [-3, 1, 2, 4, 6, 8], [2]⟩, 6⟩ := by
  obtain ⟨h1, _, _⟩ := sideCross_terminates ⟨[2, 1, 8, 6, -3, 4], [-3, 1, 2, 4, 6, 8], [2]⟩
    (by decide) 4 (by decide)
  exact ⟨h1, by decide, by decide⟩

/-- C18: for a `SideCrossIterator` over a container whose sorted vector has a
length `n` representable as `unsigned int`, and any `unsigned int` cursor `p`:
`++` fails (with out-of-range) if and only if `p = n`; for every `p > n` it
returns normally and sets the cursor to `(n - p) mod 2^32`, a value again
greater than `n`; whereas the ascending iterator fails for every `p ≥ n` and
the prime iterator for every `p` at or past the cursor of its `end()`. -/
theorem sideCross_past_end (c : MagicalContainer) (p : Nat)
    (hfit : c.ascendedElements.length < UINT_MOD) (hp : p < UINT_MOD) :
    ((SideCrossIterator.inc ⟨c, p⟩).error ≠ none ↔ p = c.ascendedElements.length) ∧
    ((SideCrossIterator.inc ⟨c, p⟩).error = some Error.outOfRange ↔
      p = c.ascendedElements.length) ∧
    (c.ascendedElements.length < p →
      SideCrossIterator.inc ⟨c, p⟩ = .ok ⟨c, usub c.ascendedElements.length p⟩ ∧
      ((usub c.ascendedElements.length p : Nat) : Int)
        = ((c.ascendedElements.length : Int) - (p : Int)) % (UINT_MOD : Int) ∧
      c.ascendedElements.length < usub c.ascendedElements.length p ∧
      usub c.ascendedElements.length p < UINT_MOD) ∧
    (c.ascendedElements.length ≤ p →
      (AscendingIterator.inc ⟨c, p⟩).error = some Error.outOfRange) ∧
    ((PrimeIterator.end_ ⟨c, p⟩).position ≤ p →
      (PrimeIterator.inc ⟨c, p⟩).error = some Error.outOfRange) := by
  have hend := sideCross_end_position c p hfit
  have hsplit : SideCrossIterator.inc ⟨c, p⟩ =
      if p = c.ascendedElements.length then .throw ⟨c, p⟩ .outOfRange
      else if p < c.ascendedElements.length / 2 then
        .ok ⟨c, usub (usub c.ascendedElements.length 1) p⟩
      else if p = c.ascendedElements.length / 2 then .ok ⟨c, c.ascendedElements.length⟩
      else .ok ⟨c, usub c.ascendedElements.length p⟩ := by
    simp only [SideCrossIterator.inc, hend, Nat.mod_eq_of_lt hfit]
  refine ⟨?_, ?_, ?_, ?_, ?_⟩
  · rw [hsplit]
    split_ifs <;> simp_all [Outcome.ok, Outcome.throw]
  · rw [hsplit]
    split_ifs <;> simp_all [Outcome.ok, Outcome.throw]
  · intro hlt
    have h1 : ¬ p = c.ascendedElements.length := by omega
    have h2 : ¬ p < c.ascendedElements.length / 2 := by omega
    have h3 : ¬ p = c.ascendedElements.length / 2 := by omega
    refine ⟨by rw [hsplit, if_neg h1, if_neg h2, if_neg h3], ?_, ?_, ?_⟩
    · simp only [usub, UINT_MOD] at *
      omega
    · simp only [usub, UINT_MOD] at *
      omega
    · simp only [usub, UINT_MOD] at *
      omega
  · intro hle
    have hA := ascending_end_position c p hfit
    rw [ascending_inc_beyond ⟨c, p⟩ (by rw [hA]; exact hle)]
    rfl
  · intro hle
    rw [prime_inc_beyond ⟨c, p⟩ hle]
    rfl

/-- Witness for C18: on a container of two elements a stale cursor 3 is
advanced, without an error, to `2^32 - 1`; the cursor 2 fails. -/
theorem sideCross_past_end_witness :
    SideCrossIterator.inc ⟨⟨[1, 2], [1, 2], [1]⟩, 3⟩ = .ok ⟨⟨[1, 2], [1, 2], [1]⟩, 4294967295⟩ ∧
    (SideCrossIterator.inc ⟨⟨[1, 2], [1, 2], [1]⟩, 2⟩).error = some Error.outOfRange ∧
    (AscendingIterator.inc ⟨⟨[1, 2], [1, 2], [1]⟩, 3⟩).error = some Error.outOfRange := by
  obtain ⟨_, h2, h3, h4, _⟩ := sideCross_past_end ⟨[1, 2], [1, 2], [1]⟩ 3 (by decide) (by decide)
  obtain ⟨_, h2', _⟩ := sideCross_past_end ⟨[1, 2], [1, 2], [1]⟩ 2 (by decide) (by decide)
  exact ⟨(h3 (by decide)).1.trans (by decide), h2'.mpr rfl, h4 (by decide)⟩


/-! ### Round trip and insertion order -/

/-- Erasing a value from a sorted vector into which it was just sorted gives the vector back. -/
theorem erase_insertionSort_append (vs : List Int) (hs : vs.Sorted (· ≤ ·)) (v : Int) :
    ((vs ++ [v]).insertionSort (· ≤ ·)).erase v = vs := by
  have hperm : (((vs ++ [v]).insertionSort (· ≤ ·)).erase v).Perm vs := by
    have h1 : ((vs ++ [v]).insertionSort (· ≤ ·)).Perm (v :: vs) :=
      (List.perm_insertionSort _ _).trans (List.perm_append_singleton v vs)
    have h2 := h1.erase v
    rwa [List.erase_cons_head] at h2
  exact List.eq_of_perm_of_sorted hperm
    (List.Pairwise.sublist (List.erase_sublist _ _) (List.sorted_insertionSort _ _)) hs

/-- Erasing a value from a sequence to which it was just appended gives a
permutation of the sequence, and the sequence itself when the value is new. -/
theorem erase_append_singleton (xs : List Int) (v : Int) :
    ((xs ++ [v]).erase v).Perm xs ∧ (v ∉ xs → (xs ++ [v]).erase v = xs) := by
  constructor
  · have h2 := (List.perm_append_singleton v xs).erase v
    rwa [List.erase_cons_head] at h2
  · intro h
    rw [List.erase_append_right _ h]
    simp

/-- C19: in every container state reached from empty and for every integer
`v`, `addElement(v)` followed by `removeElement(v)` both return normally and
restore `size()` and `ascendedElements`; `elements` is restored as a multiset,
and as a sequence whenever `v` did not already occur in it; and while the
number of elements is representable as `unsigned int`, the prime list and the
sequence of values read through it are restored too. -/
theorem add_remove_roundtrip (calls : List Call) :
    ∃ c, run calls = some c ∧ ∀ v, ∃ c1 c2,
      addElement c v = .ok c1 ∧ removeElement c1 v = .ok c2 ∧
      c2.size = c.size ∧
      c2.ascendedElements = c.ascendedElements ∧
      c2.elements.Perm c.elements ∧
      (v ∉ c.elements → c2.elements = c.elements) ∧
      (c.elements.length < UINT_MOD →
        c2.primeElements = c.primeElements ∧
        PrimeIterator.values c2 = PrimeIterator.values c) := by
  obtain ⟨c, h1, hc⟩ := run_consistent calls
  refine ⟨c, h1, fun v => ?_⟩
  obtain ⟨ps1, ha, hc1⟩ := addElement_spec c hc v
  obtain ⟨ps2, hr, hc2⟩ := removeElement_spec _ hc1 v (by simp)
  have hasc := erase_insertionSort_append c.ascendedElements hc.sorted v
  obtain ⟨hperm, hnew⟩ := erase_append_singleton c.elements v
  simp only [hasc] at hr hc2
  refine ⟨_, _, ha, hr, ?_, rfl, hperm, hnew, fun hfit => ?_⟩
  · simp only [MagicalContainer.size, hperm.length_eq]
  · have hlen : c.ascendedElements.length = c.elements.length := hc.perm.length_eq
    have hps : ps2 = c.primeElements := by
      have h2 := hc2.addresses (by show c.ascendedElements.length ≤ UINT_MOD; omega)
      have h3 := hc.addresses (by omega)
      exact h2.trans h3.symm
    refine ⟨hps, ?_⟩
    rw [consistent_primeValues hc2 (by show ((c.elements ++ [v]).erase v).length < _
                                       rw [hperm.length_eq]; exact hfit),
      consistent_primeValues hc hfit]

/-- Witness for C19: on the container holding 3, 5, adding and removing 3
again restores the sorted vector and the prime list, while `elements` comes
back as 5, 3, a permutation of 3, 5. -/
theorem add_remove_roundtrip_witness :
    ∃ c c1 c2, run [.add 3, .add 5] = some c ∧
      addElement c 3 = .ok c1 ∧ removeElement c1 3 = .ok c2 ∧
      c2.size = c.size ∧ c2.ascendedElements = c.ascendedElements ∧
      c2.primeElements = c.primeElements ∧ c.elements = [3, 5] ∧ c2.elements = [5, 3] := by
  obtain ⟨c, h1, h2⟩ := add_remove_roundtrip [.add 3, .add 5]
  have hc : c = ⟨[3, 5], [3, 5], [0, 1]⟩ := by
    have hrun : run [.add 3, .add 5] = some ⟨[3, 5], [3, 5], [0, 1]⟩ := by decide
    rw [hrun] at h1
    exact (Option.some.inj h1).symm
  subst hc
  obtain ⟨c1, c2, ha, hr, hs, hasc, _, _, hp⟩ := h2 3
  have hc1 : c1 = ⟨[3, 5, 3], [3, 3, 5], [0, 1, 2]⟩ := by
    have hadd : addElement ⟨[3, 5], [3, 5], [0, 1]⟩ 3
        = .ok ⟨[3, 5, 3], [3, 3, 5], [0, 1, 2]⟩ := by decide
    rw [hadd] at ha
    exact (congrArg Outcome.state ha).symm
  subst hc1
  have hc2 : c2 = ⟨[5, 3], [3, 5], [0, 1]⟩ := by
    have hrem : removeElement ⟨[3, 5, 3], [3, 3, 5], [0, 1, 2]⟩ 3
        = .ok ⟨[5, 3], [3, 5], [0, 1]⟩ := by decide
    rw [hrem] at hr
    exact (congrArg Outcome.state hr).symm
  subst hc2
  exact ⟨_, _, _, h1, ha, hr, hs, hasc, (hp (by decide)).1, rfl, rfl⟩


/-- The ascending loop reads nothing of the container but `ascendedElements`. -/
theorem ascending_collect_congr (c d : MagicalContainer)
    (h : c.ascendedElements = d.ascendedElements) (fuel : Nat) :
    ∀ p, AscendingIterator.collect fuel ⟨c, p⟩ = AscendingIterator.collect fuel ⟨d, p⟩ := by
  induction fuel with
  | zero => intro p; rfl
  | succ fuel ih =>
    intro p
    have hne : AscendingIterator.ne ⟨c, p⟩ (AscendingIterator.end_ ⟨c, p⟩)
        = AscendingIterator.ne ⟨d, p⟩ (AscendingIterator.end_ ⟨d, p⟩) := by
      simp only [AscendingIterator.ne, AscendingIterator.end_, AscendingIterator.ofPosition, h]
    have hderef : AscendingIterator.deref ⟨c, p⟩ = AscendingIterator.deref ⟨d, p⟩ := by
      simp only [AscendingIterator.deref, h]
    have hinc : (AscendingIterator.inc ⟨c, p⟩ = .throw ⟨c, p⟩ .outOfRange ∧
          AscendingIterator.inc ⟨d, p⟩ = .throw ⟨d, p⟩ .outOfRange) ∨
        ∃ q, AscendingIterator.inc ⟨c, p⟩ = .ok ⟨c, q⟩ ∧
          AscendingIterator.inc ⟨d, p⟩ = .ok ⟨d, q⟩ := by
      simp only [AscendingIterator.inc, AscendingIterator.end_, AscendingIterator.ofPosition, h]
      split_ifs
      · exact Or.inl ⟨rfl, rfl⟩
      · exact Or.inr ⟨_, rfl, rfl⟩
    rw [AscendingIterator.collect, AscendingIterator.collect, hne, hderef]
    rcases hinc with ⟨h1, h2⟩ | ⟨q, h1, h2⟩
    · simp only [h1, h2, Outcome.throw]
    · simp only [h1, h2, Outcome.ok, ih q]

/-- The side-cross loop reads nothing of the container but `ascendedElements`. -/
theorem sideCross_collect_congr (c d : MagicalContainer)
    (h : c.ascendedElements = d.ascendedElements) (fuel : Nat) :
    ∀ p, SideCrossIterator.collect fuel ⟨c, p⟩ = SideCrossIterator.collect fuel ⟨d, p⟩ := by
  induction fuel with
  | zero => intro p; rfl
  | succ fuel ih =>
    intro p
    have hne : SideCrossIterator.ne ⟨c, p⟩ (SideCrossIterator.end_ ⟨c, p⟩)
        = SideCrossIterator.ne ⟨d, p⟩ (SideCrossIterator.end_ ⟨d, p⟩) := by
      simp only [SideCrossIterator.ne, SideCrossIterator.end_, SideCrossIterator.ofPosition, h]
    have hderef : SideCrossIterator.deref ⟨c, p⟩ = SideCrossIterator.deref ⟨d, p⟩ := by
      simp only [SideCrossIterator.deref, h]
    have hinc : (SideCrossIterator.inc ⟨c, p⟩ = .throw ⟨c, p⟩ .outOfRange ∧
          SideCrossIterator.inc ⟨d, p⟩ = .throw ⟨d, p⟩ .outOfRange) ∨
        ∃ q, SideCrossIterator.inc ⟨c, p⟩ = .ok ⟨c, q⟩ ∧
          SideCrossIterator.inc ⟨d, p⟩ = .ok ⟨d, q⟩ := by
      simp only [SideCrossIterator.inc, SideCrossIterator.end_, SideCrossIterator.ofPosition, h]
      split_ifs
      · exact Or.inl ⟨rfl, rfl⟩
      · exact Or.inr ⟨_, rfl, rfl⟩
      · exact Or.inr ⟨_, rfl, rfl⟩
      · exact Or.inr ⟨_, rfl, rfl⟩
    rw [SideCrossIterator.collect, SideCrossIterator.collect, hne, hderef]
    rcases hinc with ⟨h1, h2⟩ | ⟨q, h1, h2⟩
    · simp only [h1, h2, Outcome.throw]
    · simp only [h1, h2, Outcome.ok, ih q]

/-- The prime loop reads nothing of the container but `ascendedElements` and `primeElements`. -/
theorem prime_collect_congr (c d : MagicalContainer)
    (h : c.ascendedElements = d.ascendedElements) (hp : c.primeElements = d.primeElements)
    (fuel : Nat) :
    ∀ p, PrimeIterator.collect fuel ⟨c, p⟩ = PrimeIterator.collect fuel ⟨d, p⟩ := by
  induction fuel with
  | zero => intro p; rfl
  | succ fuel ih =>
    intro p
    have hne : PrimeIterator.ne ⟨c, p⟩ (PrimeIterator.end_ ⟨c, p⟩)
        = PrimeIterator.ne ⟨d, p⟩ (PrimeIterator.end_ ⟨d, p⟩) := by
      simp only [PrimeIterator.ne, PrimeIterator.end_, PrimeIterator.ofPosition, hp]
    have hderef : PrimeIterator.deref ⟨c, p⟩ = PrimeIterator.deref ⟨d, p⟩ := by
      simp only [PrimeIterator.deref, h, hp]
    have hinc : (PrimeIterator.inc ⟨c, p⟩ = .throw ⟨c, p⟩ .outOfRange ∧
          PrimeIterator.inc ⟨d, p⟩ = .throw ⟨d, p⟩ .outOfRange) ∨
        ∃ q, PrimeIterator.inc ⟨c, p⟩ = .ok ⟨c, q⟩ ∧
          PrimeIterator.inc ⟨d, p⟩ = .ok ⟨d, q⟩ := by
      simp only [PrimeIterator.inc, PrimeIterator.end_, PrimeIterator.ofPosition, hp]
      split_ifs
      · exact Or.inl ⟨rfl, rfl⟩
      · exact Or.inr ⟨_, rfl, rfl⟩
    rw [PrimeIterator.collect, PrimeIterator.collect, hne, hderef]
    rcases hinc with ⟨h1, h2⟩ | ⟨q, h1, h2⟩
    · simp only [h1, h2, Outcome.throw]
    · simp only [h1, h2, Outcome.ok, ih q]

/-- C20: for any two lists `xs` and `ys` that are permutations of each other,
inserting `xs` and inserting `ys` into an empty container both return normally
and give containers with identical `ascendedElements`, hence identical
ascending and side-cross loops (for every fuel); while the number of elements
is representable as `unsigned int` the prime lists, the values read through
them and the prime loops are identical too.  Only `elements` keeps the order
of insertion. -/
theorem insertion_order_independent (xs ys : List Int) (h : xs.Perm ys) :
    ∃ cx cy, insertAll xs = some cx ∧ insertAll ys = some cy ∧
      cx.elements = xs ∧ cy.elements = ys ∧
      cx.ascendedElements = cy.ascendedElements ∧
      (∀ fuel, AscendingIterator.collect fuel (AscendingIterator.ofContainer cx).begin
        = AscendingIterator.collect fuel (AscendingIterator.ofContainer cy).begin) ∧
      (∀ fuel, SideCrossIterator.collect fuel (SideCrossIterator.ofContainer cx).begin
        = SideCrossIterator.collect fuel (SideCrossIterator.ofContainer cy).begin) ∧
      (xs.length < UINT_MOD →
        cx.primeElements = cy.primeElements ∧
        PrimeIterator.values cx = PrimeIterator.values cy ∧
        ∀ fuel, PrimeIterator.collect fuel (PrimeIterator.ofContainer cx).begin
          = PrimeIterator.collect fuel (PrimeIterator.ofContainer cy).begin) := by
  obtain ⟨cx, hx1, hcx, hx2⟩ := runFrom_adds xs _ consistent_empty
  obtain ⟨cy, hy1, hcy, hy2⟩ := runFrom_adds ys _ consistent_empty
  simp only [MagicalContainer.empty, List.nil_append] at hx2 hy2
  have hasc : cx.ascendedElements = cy.ascendedElements :=
    List.eq_of_perm_of_sorted
      (hcx.perm.trans ((hx2 ▸ hy2 ▸ h : cx.elements.Perm cy.elements).trans hcy.perm.symm))
      hcx.sorted hcy.sorted
  refine ⟨cx, cy, hx1, hy1, hx2, hy2, hasc,
    fun fuel => ascending_collect_congr cx cy hasc fuel 0,
    fun fuel => sideCross_collect_congr cx cy hasc fuel 0, fun hfit => ?_⟩
  have hlx : cx.ascendedElements.length = xs.length := by rw [hcx.perm.length_eq, hx2]
  have hly : cy.ascendedElements.length = xs.length := by rw [← hasc, hlx]
  have hps : cx.primeElements = cy.primeElements := by
    rw [hcx.addresses (by omega), hcy.addresses (by omega), hasc]
  refine ⟨hps, ?_, fun fuel => prime_collect_congr cx cy hasc hps fuel 0⟩
  rw [consistent_primeValues hcx (by rw [hx2]; exact hfit),
    consistent_primeValues hcy (by rw [hy2, ← h.length_eq]; exact hfit), hasc]

/-- Witness for C20: inserting 2, 1, 8, 6, -3, 4 and inserting 4, -3, 6, 8, 1, 2
give the same sorted vector and the same prime list, and different `elements`. -/
theorem insertion_order_independent_witness :
    ∃ cx cy, insertAll [2, 1, 8, 6, -3, 4] = some cx ∧ insertAll [4, -3, 6, 8, 1, 2] = some cy ∧
      cx.ascendedElements = cy.ascendedElements ∧ cx.primeElements = cy.primeElements ∧
      cx.elements ≠ cy.elements := by
  obtain ⟨cx, cy, h1, h2, h3, h4, h5, _, _, h8⟩ :=
    insertion_order_independent [2, 1, 8, 6, -3, 4] [4, -3, 6, 8, 1, 2] (by decide)
  exact ⟨cx, cy, h1, h2, h5, (h8 (by decide)).1, by rw [h3, h4]; decide⟩

end ariel
